import Mathlib

/-!
# Shallow embedding of the update scheduler (`createUpdater`)

This file models the update-propagation scheduler of the repository:
the intrusive circular queue of subscriber nodes (`appendNodeToQueue`,
`removeCurrentNode`), the pending-state buffer with last-write-wins
coalescing (`newState`, `startUpdate`), the traversal work loop with its
reentrancy deferral (`doUpdateWork`, `updating`, `continueUpdate`), and
the error collection with asynchronous rethrow (`completeUpdate`).

Modelling conventions:
* Snapshots are `Nat`; the JS `null` initial state is `none`, so
  `queue.state : Option Nat`.  JS `!==` on snapshots is `≠` here (each
  distinct submitted object is a distinct `Nat`).
* Nodes live in an arena `nodes : List Node`; a node's JS `index` field is
  its position in the arena (`nodeCount` is `nodes.length`).  The JS
  `nextNode` pointer is `next : Option Nat`, an arena index.
* The liveness of a node's callback cell (`node.updater.current !== null`)
  is the Boolean field `live`; what a callback does when invoked is given
  by an environment `beh : Nat → CbResult` (return normally, throw a
  value, or call the scheduler's `updating` entry point, which sets the
  working flag).  `node.updater.current()` is called with no arguments in
  the source; an `Ev.invoked i q` event records which node was invoked and
  what `queue.state` was at that moment.
* Thrown JS values are `Nat`s, with `0` standing for a falsy value (the
  drain loop `while ((e = caughtErrors.pop()))` stops on falsy values).
* `scheduleAsMicrotask` / `scheduleAsTask` (`Promise.resolve().then` /
  `setTimeout 0`) are two FIFO job queues; a driver `run` executes all
  microtasks before any task.  `unstable_batchedUpdates f` is `f`.
* Places where the JS would dereference `null` (impossible while the ring
  invariant holds) emit an `Ev.crashed` marker.
-/

/-- One subscriber node (the object literal built in `create`).
`live` models `updater.current !== null`, `state` the node's last-seen
snapshot, `next` its `nextNode` arena index (`none` = JS `null`). -/
structure Node where
  live : Bool
  state : Option Nat
  next : Option Nat
deriving DecidableEq, Repr

/-- The circular queue record: `state`, `lastNode`, `cursorNode`. -/
structure Queue where
  state : Option Nat
  lastNode : Option Nat
  cursorNode : Option Nat
deriving DecidableEq, Repr

/-- The whole closure state of one `createUpdater()` instance.
`states` is the pending-snapshot array (JS array order: `push` appends at
the end, `pop` takes from the end); `caughtErrors` likewise. -/
structure Updater where
  queue : Queue
  nodes : List Node
  states : List Nat
  isWorking : Bool
  caughtErrors : List Nat
deriving DecidableEq, Repr

/-- The state right after `createUpdater()` returns. -/
def initialUpdater : Updater :=
  { queue := { state := none, lastNode := none, cursorNode := none }
    nodes := []
    states := []
    isWorking := false
    caughtErrors := [] }

/-- Read a node from the arena (total; out-of-range reads yield a dummy,
which never happens while the ring invariant holds). -/
def getNode (u : Updater) (i : Nat) : Node :=
  u.nodes.getD i { live := false, state := none, next := none }

/-- Overwrite the `nextNode` pointer of the node at arena index `i`. -/
def setNext (u : Updater) (i : Nat) (v : Option Nat) : Updater :=
  { u with nodes := u.nodes.set i { getNode u i with next := v } }

/-- `appendNodeToQueue(node)` for the node at arena index `i`: splice the
node in as the new tail; if the cursor sat on the old tail, advance it to
the new node. -/
def appendNodeToQueue (u : Updater) (i : Nat) : Updater :=
  match u.queue.lastNode with
  | none =>
      -- queue.lastNode = node; node.nextNode = node; queue.cursorNode = node
      let u1 := setNext u i (some i)
      { u1 with queue := { u1.queue with lastNode := some i, cursorNode := some i } }
  | some t =>
      -- node.nextNode = lastNode.nextNode; queue.lastNode.nextNode = node;
      -- if (cursorNode === lastNode) queue.cursorNode = node; queue.lastNode = node
      let u1 := setNext u i (getNode u t).next
      let u2 := setNext u1 t (some i)
      let u3 :=
        if u.queue.cursorNode = some t then
          { u2 with queue := { u2.queue with cursorNode := some i } }
        else u2
      { u3 with queue := { u3.queue with lastNode := some i } }

/-- `removeCurrentNode()`: drop the node just after the cursor from the
ring.  The branch where `cursorNode` is `null` in a multi-node ring would
be a JS `TypeError`; it is unreachable under the ring invariant and is
modelled as the identity. -/
def removeCurrentNode (u : Updater) : Updater :=
  match u.queue.lastNode with
  | none => u
  | some t =>
    if (getNode u t).next = some t then
      -- lastNode.nextNode = null; queue.lastNode = null; queue.cursorNode = null
      let u1 := setNext u t none
      { u1 with queue := { u1.queue with lastNode := none, cursorNode := none } }
    else
      match u.queue.cursorNode with
      | none => u
      | some c =>
        match (getNode u c).next with
        | none => u
        | some r =>
          let u1 := if r = t then { u with queue := { u.queue with lastNode := some c } } else u
          setNext u1 c (getNode u1 r).next

/-- `create(updater)`: build a node stamped with the queue's current
snapshot and append it; returns the new state and the node's index. -/
def create (u : Updater) (live : Bool) : Updater × Nat :=
  let i := u.nodes.length
  let node : Node := { live := live, state := u.queue.state, next := none }
  (appendNodeToQueue { u with nodes := u.nodes ++ [node] } i, i)

/-- What a node's callback does when invoked (the behaviour of
`node.updater.current()`): return normally, throw the value `e`, or call
the scheduler's `updating` entry point (which sets `isWorking`). -/
inductive CbResult
  | ok
  | throwsE (e : Nat)
  | callsUpdating
deriving DecidableEq, Repr

/-- Observable events of a run. -/
inductive Ev
  | removed (i : Nat)
  | skipped (i : Nat)
  | invoked (i : Nat) (snap : Option Nat)
  | passStarted (snap : Option Nat)
  | rethrown (e : Nat)
  | crashed
  | fuelOut
  | fatal
deriving DecidableEq, Repr

/-- Deferred units of work: the microtask continuation
(`scheduleAsMicrotask(continueUpdate)`), the deferred pass start
(`scheduleAsTask(startUpdate)`), and a deferred rethrow
(`scheduleAsTask(() => { throw e })`). -/
inductive Job
  | continueU
  | startU
  | rethrow (e : Nat)
deriving DecidableEq, Repr

/-- The skip-or-invoke block of the work loop body, for a live node `n`:
if the node's last-seen state equals the queue's current snapshot, skip;
otherwise invoke its callback inside `try { ... } catch`, buffering a
thrown value; `updating` sets the working flag. -/
def stepNode (beh : Nat → CbResult) (u : Updater) (n : Nat) : Updater × Ev :=
  if (getNode u n).state = u.queue.state then (u, Ev.skipped n)
  else
    match beh n with
    | CbResult.ok => (u, Ev.invoked n u.queue.state)
    | CbResult.throwsE e =>
        ({ u with caughtErrors := u.caughtErrors ++ [e] }, Ev.invoked n u.queue.state)
    | CbResult.callsUpdating =>
        ({ u with isWorking := true }, Ev.invoked n u.queue.state)

/-- `queue.cursorNode = node` — advancing the cursor after a node is
handled. -/
def advanceCursor (u : Updater) (n : Nat) : Updater :=
  { u with queue := { u.queue with cursorNode := some n } }

/-- The `workLoop: do { ... } while (queue.cursorNode !== queue.lastNode)`
body of `doUpdateWork`, fuelled.  The `Bool` result is `true` when the
loop returned early because `isWorking` was set mid-pass (after having
scheduled its continuation). -/
def doWorkLoop (beh : Nat → CbResult) : Nat → Updater → Updater × List Ev × Bool
  | 0, u => (u, [Ev.fuelOut], false)
  | fuel + 1, u =>
    match u.queue.cursorNode with
    | none => (u, [Ev.crashed], false)
    | some c =>
      match (getNode u c).next with
      | none => (u, [Ev.crashed], false)
      | some n =>
        if (getNode u n).live = false then
          -- while (node.updater.current === null) { removeCurrentNode(); ... }
          let u1 := removeCurrentNode u
          if u1.queue.lastNode = none then (u1, [Ev.removed n], false)
          else
            let r := doWorkLoop beh fuel u1
            (r.1, Ev.removed n :: r.2.1, r.2.2)
        else
          let s := stepNode beh u n
          let u2 := advanceCursor s.1 n
          if u2.isWorking then (u2, [s.2], true)
          else if u2.queue.cursorNode = u2.queue.lastNode then (u2, [s.2], false)
          else
            let r := doWorkLoop beh fuel u2
            (r.1, s.2 :: r.2.1, r.2.2)

/-- The drain loop `while ((e = caughtErrors.pop()))` of `completeUpdate`,
acting on the buffer in pop order (reversed array order).  Returns the
rethrow-scheduling order and what is left in the buffer (still in pop
order); a falsy (`0`) popped value stops the drain and is dropped. -/
def drainRev : List Nat → List Nat × List Nat
  | [] => ([], [])
  | e :: rest =>
      if e = 0 then ([], rest)
      else
        let r := drainRev rest
        (e :: r.1, r.2)

/-- `completeUpdate()`: drain the error buffer, scheduling one rethrow
task per drained error, then `checkForNextUpdate()` (which schedules
`startUpdate` as a task when not working). -/
def completeUpdate (u : Updater) : Updater × List Job :=
  let d := drainRev u.caughtErrors.reverse
  let u1 := { u with caughtErrors := d.2.reverse }
  (u1, d.1.map Job.rethrow ++ if u1.isWorking then [] else [Job.startU])

/-- `doUpdateWork()`: the guarded loop plus `completeUpdate` on normal
completion; on mid-pass suspension it schedules `continueUpdate` as a
microtask instead.  Result: (state, events, microtasks, tasks). -/
def doUpdateWork (beh : Nat → CbResult) (wfuel : Nat) (u : Updater) :
    Updater × List Ev × List Job × List Job :=
  if u.isWorking then (u, [], [], [])
  else if u.queue.lastNode = none then
    let c := completeUpdate u
    (c.1, [], [], c.2)
  else
    let r := doWorkLoop beh wfuel u
    if r.2.2 then (r.1, r.2.1, [Job.continueU], [])
    else
      let c := completeUpdate r.1
      (c.1, r.2.1, [], c.2)

/-- `startUpdate()`: no-op when already working or nothing pending;
otherwise install the most recent pending snapshot and clear the buffer;
then, if the ring is non-empty, check the cursor invariant (throwing the
fatal `startUpdate, called when not working but there is an unfinished
update` error — the `Except.error` case — when it fails) and run
`doUpdateWork` via `unstable_batchedUpdates`. -/
def startUpdate (beh : Nat → CbResult) (wfuel : Nat) (u : Updater) :
    Except Unit (Updater × List Ev × List Job × List Job) :=
  if u.isWorking then Except.ok (u, [], [], [])
  else if u.states = [] then Except.ok (u, [], [], [])
  else
    -- queue.state = states.pop(); states.length = 0
    let u1 := { u with queue := { u.queue with state := u.states.getLast? }, states := [] }
    if u1.queue.lastNode = none then Except.ok (u1, [], [], [])
    else if u1.queue.cursorNode ≠ u1.queue.lastNode then Except.error ()
    else
      let r := doUpdateWork beh wfuel u1
      Except.ok (r.1, Ev.passStarted u1.queue.state :: r.2.1, r.2.2.1, r.2.2.2)

/-- `newState(state)`: accept a snapshot unless it is (identity-)equal to
the queue's current one; on acceptance push it and attempt to start. -/
def newState (beh : Nat → CbResult) (wfuel : Nat) (u : Updater) (s : Nat) :
    Except Unit (Updater × List Ev × List Job × List Job) :=
  if u.queue.state ≠ some s then
    startUpdate beh wfuel { u with states := u.states ++ [s] }
  else Except.ok (u, [], [], [])

/-- Execute one deferred job.  `continueU` is `continueUpdate`: clear the
working flag, then `unstable_batchedUpdates(doUpdateWork)`. -/
def execJob (beh : Nat → CbResult) (wfuel : Nat) (u : Updater) :
    Job → Except Unit (Updater × List Ev × List Job × List Job)
  | Job.rethrow e => Except.ok (u, [Ev.rethrown e], [], [])
  | Job.continueU => Except.ok (doUpdateWork beh wfuel { u with isWorking := false })
  | Job.startU => startUpdate beh wfuel u

/-- The host scheduler: drain all microtasks before any task, each job
possibly enqueueing further jobs at the back of its queue.  A fatal
synchronous throw out of a task surfaces as `Ev.fatal` and halts. -/
def run (beh : Nat → CbResult) (wfuel : Nat) :
    Nat → Updater → List Job → List Job → Updater × List Ev
  | 0, u, micro, tasks =>
      (u, if micro = [] ∧ tasks = [] then [] else [Ev.fuelOut])
  | fuel + 1, u, micro, tasks =>
    match micro, tasks with
    | [], [] => (u, [])
    | j :: m, _ =>
      match execJob beh wfuel u j with
      | Except.error _ => (u, [Ev.fatal])
      | Except.ok r =>
        let rest := run beh wfuel fuel r.1 (m ++ r.2.2.1) (tasks ++ r.2.2.2)
        (rest.1, r.2.1 ++ rest.2)
    | [], j :: t =>
      match execJob beh wfuel u j with
      | Except.error _ => (u, [Ev.fatal])
      | Except.ok r =>
        let rest := run beh wfuel fuel r.1 r.2.2.1 (t ++ r.2.2.2)
        (rest.1, r.2.1 ++ rest.2)

/-! ## Ring-shape predicates

A non-empty ring is described by the list of its members in traversal
order starting at the logical head (`lastNode.nextNode`) and ending at
the tail (`lastNode`): following `nextNode` from each member reaches the
next list entry, and the tail links back to the head. -/

/-- `chainB u l dst`: the `next` links inside `l` follow the list order,
and the last member of `l` links to `dst`. -/
def chainB (u : Updater) : List Nat → Nat → Bool
  | [], _ => true
  | [x], dst => decide ((getNode u x).next = some dst)
  | x :: y :: rest, dst =>
      decide ((getNode u x).next = some y) && chainB u (y :: rest) dst

/-- The ring of `u` consists exactly of the members of `l`, in order from
head to tail (cursor position not constrained). -/
def ringShape (u : Updater) (l : List Nat) : Bool :=
  match l with
  | [] => decide (u.queue.lastNode = none)
  | h :: rest =>
      decide (u.queue.lastNode = (h :: rest).getLast?)
      && decide (h :: rest).Nodup
      && (h :: rest).all (fun x => decide (x < u.nodes.length))
      && chainB u (h :: rest) h

/-- The full ring invariant: the ring is `l` and the cursor rests on a
member (or is cleared together with the ring). -/
def ringWF (u : Updater) (l : List Nat) : Bool :=
  ringShape u l &&
  match u.queue.cursorNode with
  | some c => l.contains c
  | none => l.isEmpty

/-- Traversal bookkeeping: the ring is `done ++ todo`, and the cursor
rests on the last processed member (the end of `done`; at the start of a
pass `done = []` and the cursor coincides with the tail). -/
def ringAt (u : Updater) (done todo : List Nat) : Bool :=
  ringShape u (done ++ todo) &&
  match done.getLast? with
  | some c => decide (u.queue.cursorNode = some c)
  | none => decide (u.queue.cursorNode = u.queue.lastNode)

/-! ## Expected traversal outcomes (specification helpers) -/

/-- A node triggers the mid-pass suspension exactly when it is live,
behind the snapshot `q`, and its callback calls `updating`. -/
def flagsB (beh : Nat → CbResult) (u : Updater) (q : Option Nat) (n : Nat) : Bool :=
  (getNode u n).live && !(decide ((getNode u n).state = q)) &&
    decide (beh n = CbResult.callsUpdating)

/-- The visit event the work loop produces for node `n` under snapshot
`q`: removal when dead, skip when already stamped `q`, else invocation. -/
def visitEv (u : Updater) (q : Option Nat) (n : Nat) : Ev :=
  if (getNode u n).live = false then Ev.removed n
  else if (getNode u n).state = q then Ev.skipped n
  else Ev.invoked n q

/-- Visit events for a whole segment. -/
def visitEvs (u : Updater) (q : Option Nat) (l : List Nat) : List Ev :=
  l.map (visitEv u q)

/-- The errors thrown (and buffered) while traversing `l`. -/
def errsOf (beh : Nat → CbResult) (u : Updater) (q : Option Nat) (l : List Nat) : List Nat :=
  l.filterMap fun n =>
    if (getNode u n).live = false then none
    else if (getNode u n).state = q then none
    else
      match beh n with
      | CbResult.throwsE e => some e
      | _ => none

/-- The members of `l` that survive traversal (dead ones are reaped). -/
def liveFilter (u : Updater) (l : List Nat) : List Nat :=
  l.filter fun n => (getNode u n).live

/-- The node index a visit event (removal, skip or invocation) touches. -/
def visitIdx : Ev → Option Nat
  | Ev.removed i => some i
  | Ev.skipped i => some i
  | Ev.invoked i _ => some i
  | _ => none

/-- Two states agreeing on every node's `live` and `state` fields (the
work loop only ever rewrites `next` pointers). -/
def sameNodesFields (u v : Updater) : Prop :=
  ∀ i, (getNode v i).live = (getNode u i).live ∧ (getNode v i).state = (getNode u i).state

/-! ## Scenario building blocks

Concrete behaviours and updater states used to instantiate the general
theorems and to exhibit counterexamples. -/

/-- Unwrap a scheduler entry point's result; the `Except.error` case (the
fatal invariant throw) surfaces as a crashed fresh updater. -/
def stepOk : Except Unit (Updater × List Ev × List Job × List Job) →
    Updater × List Ev × List Job × List Job
  | Except.ok r => r
  | Except.error _ => (initialUpdater, [Ev.fatal], [], [])

/-- Callback behaviour: every subscriber returns normally. -/
def behOk : Nat → CbResult := fun _ => CbResult.ok

/-- Callback behaviour: subscriber `k` re-enters the scheduler via
`updating` (setting the working flag), all others return normally. -/
def behUpd (k : Nat) : Nat → CbResult :=
  fun n => if n = k then CbResult.callsUpdating else CbResult.ok

/-- Callback behaviour: subscriber `n` throws the value `f n`. -/
def behThrow (f : Nat → Nat) : Nat → CbResult :=
  fun n => CbResult.throwsE (f n)

/-- A ring of `k` live subscriber nodes (arena indices `0..k-1`, ring
order `[0, 1, …, k-1]`) built by `create` from a fresh updater. -/
def mkRing : Nat → Updater
  | 0 => initialUpdater
  | k + 1 => (create (mkRing k) true).1

/-- An updater with the snapshot `s` installed as the queue's current
state (as a completed pass against `s` would leave it). -/
def withSnap (u : Updater) (s : Nat) : Updater :=
  { u with queue := { u.queue with state := some s } }

/-- Extend the arena with a live node that is not yet in the ring (a
subscriber constructed but not appended). -/
def withFreeNode (u : Updater) : Updater :=
  { u with nodes := u.nodes ++ [{ live := true, state := none, next := none }] }

/-- A two-node updater suspended mid-pass: `newState 5` started a pass
and node `0`'s callback called `updating`, so the loop stopped with the
cursor on node `0`, node `1` unvisited, and `continueUpdate` scheduled as
a microtask. -/
def c3suspended : Updater := (stepOk (newState (behUpd 0) 4 (mkRing 2) 5)).1

/-- A corrupted two-node updater: idle with work pending but the cursor
away from the tail — the situation `startUpdate` treats as a fatal
scheduler-invariant violation. -/
def c5bad : Updater :=
  { mkRing 2 with
    states := [7]
    queue := { (mkRing 2).queue with cursorNode := some 0 } }

/-! ## Basic frame lemmas -/

theorem getD_set_eq_ite {α : Type} (l : List α) (i j : Nat) (v d : α) :
    (l.set i v).getD j d = if i = j ∧ i < l.length then v else l.getD j d := by
  simp only [List.getD_eq_getElem?_getD, List.getElem?_set]
  by_cases h : i = j
  · subst h
    by_cases h2 : i < l.length
    · simp [h2]
    · simp [h2, List.getElem?_eq_none (Nat.le_of_not_lt h2)]
  · simp [h]

theorem getNode_setNext (u : Updater) (i : Nat) (v : Option Nat) (j : Nat) :
    getNode (setNext u i v) j =
      if i = j ∧ i < u.nodes.length then { getNode u i with next := v }
      else getNode u j := by
  unfold getNode setNext
  rw [getD_set_eq_ite]
  rfl

theorem getNode_setNext_live (u : Updater) (i : Nat) (v : Option Nat) (j : Nat) :
    (getNode (setNext u i v) j).live = (getNode u j).live := by
  rw [getNode_setNext]
  split
  · rename_i h
    rw [h.1]
  · rfl

theorem getNode_setNext_state (u : Updater) (i : Nat) (v : Option Nat) (j : Nat) :
    (getNode (setNext u i v) j).state = (getNode u j).state := by
  rw [getNode_setNext]
  split
  · rename_i h
    rw [h.1]
  · rfl

theorem setNext_queue (u : Updater) (i : Nat) (v : Option Nat) :
    (setNext u i v).queue = u.queue := rfl

theorem setNext_states (u : Updater) (i : Nat) (v : Option Nat) :
    (setNext u i v).states = u.states := rfl

theorem setNext_isWorking (u : Updater) (i : Nat) (v : Option Nat) :
    (setNext u i v).isWorking = u.isWorking := rfl

theorem setNext_caughtErrors (u : Updater) (i : Nat) (v : Option Nat) :
    (setNext u i v).caughtErrors = u.caughtErrors := rfl

theorem setNext_length (u : Updater) (i : Nat) (v : Option Nat) :
    (setNext u i v).nodes.length = u.nodes.length := by
  simp [setNext]

theorem removeCurrentNode_state (u : Updater) :
    (removeCurrentNode u).queue.state = u.queue.state := by
  unfold removeCurrentNode
  repeat' split
  all_goals rfl

theorem removeCurrentNode_states (u : Updater) :
    (removeCurrentNode u).states = u.states := by
  unfold removeCurrentNode
  repeat' split
  all_goals rfl

theorem removeCurrentNode_isWorking (u : Updater) :
    (removeCurrentNode u).isWorking = u.isWorking := by
  unfold removeCurrentNode
  repeat' split
  all_goals rfl

theorem removeCurrentNode_caughtErrors (u : Updater) :
    (removeCurrentNode u).caughtErrors = u.caughtErrors := by
  unfold removeCurrentNode
  repeat' split
  all_goals rfl

theorem removeCurrentNode_length (u : Updater) :
    (removeCurrentNode u).nodes.length = u.nodes.length := by
  unfold removeCurrentNode
  repeat' split
  all_goals simp [setNext_length]

theorem sameNodesFields_refl (u : Updater) : sameNodesFields u u := by
  intro i
  exact ⟨rfl, rfl⟩

theorem removeCurrentNode_nodesFields (u : Updater) :
    sameNodesFields u (removeCurrentNode u) := by
  unfold removeCurrentNode
  repeat' split
  all_goals
    first
      | exact sameNodesFields_refl u
      | (intro i
         exact ⟨getNode_setNext_live _ _ _ i, getNode_setNext_state _ _ _ i⟩)

theorem sameNodesFields_trans {u v w : Updater}
    (h1 : sameNodesFields u v) (h2 : sameNodesFields v w) : sameNodesFields u w := by
  intro i
  exact ⟨(h2 i).1.trans (h1 i).1, (h2 i).2.trans (h1 i).2⟩

theorem stepNode_nodes (beh : Nat → CbResult) (u : Updater) (n : Nat) :
    (stepNode beh u n).1.nodes = u.nodes := by
  unfold stepNode
  repeat' split
  all_goals rfl

theorem stepNode_queue (beh : Nat → CbResult) (u : Updater) (n : Nat) :
    (stepNode beh u n).1.queue = u.queue := by
  unfold stepNode
  repeat' split
  all_goals rfl

theorem stepNode_states (beh : Nat → CbResult) (u : Updater) (n : Nat) :
    (stepNode beh u n).1.states = u.states := by
  unfold stepNode
  repeat' split
  all_goals rfl

theorem stepNode_caughtErrors (beh : Nat → CbResult) (u : Updater) (n : Nat)
    (hlive : (getNode u n).live = true) :
    (stepNode beh u n).1.caughtErrors =
      u.caughtErrors ++ errsOf beh u u.queue.state [n] := by
  unfold stepNode
  unfold errsOf
  repeat' split
  all_goals simp_all [List.filterMap]

theorem stepNode_isWorking (beh : Nat → CbResult) (u : Updater) (n : Nat)
    (hlive : (getNode u n).live = true) (hw : u.isWorking = false) :
    (stepNode beh u n).1.isWorking = flagsB beh u u.queue.state n := by
  unfold stepNode
  unfold flagsB
  repeat' split
  all_goals simp_all

theorem stepNode_ev (beh : Nat → CbResult) (u : Updater) (n : Nat)
    (hlive : (getNode u n).live = true) :
    (stepNode beh u n).2 = visitEv u u.queue.state n := by
  unfold stepNode
  unfold visitEv
  repeat' split
  all_goals simp_all

/-! ## Chain lemmas -/

theorem chainB_congr (u v : Updater) :
    ∀ (l : List Nat) (dst : Nat),
      (∀ x ∈ l, (getNode v x).next = (getNode u x).next) →
      chainB v l dst = chainB u l dst
  | [], _, _ => rfl
  | [x], dst, h => by simp [chainB, h x (by simp)]
  | x :: y :: rest, dst, h => by
      simp only [chainB, h x (by simp),
        chainB_congr u v (y :: rest) dst (fun z hz => h z (by simp [hz]))]

theorem chainB_append (u : Updater) :
    ∀ (l1 : List Nat) (y : Nat) (l2 : List Nat) (dst : Nat),
      chainB u (l1 ++ y :: l2) dst = (chainB u l1 y && chainB u (y :: l2) dst)
  | [], y, l2, dst => by simp [chainB]
  | [x], y, l2, dst => by
      cases l2 <;> simp [chainB, Bool.and_assoc]
  | x :: x2 :: r, y, l2, dst => by
      have ih := chainB_append u (x2 :: r) y l2 dst
      simp only [List.cons_append] at ih ⊢
      simp only [chainB, ih, Bool.and_assoc]

theorem chainB_lastLink (u : Updater) :
    ∀ (l : List Nat) (x dst : Nat),
      chainB u l dst = true → l.getLast? = some x →
      (getNode u x).next = some dst
  | [], x, dst, _, hl => by simp at hl
  | [z], x, dst, h, hl => by
      simp [chainB] at h
      simp at hl
      rw [hl] at h
      exact h
  | z :: y :: r, x, dst, h, hl => by
      simp only [chainB, Bool.and_eq_true, decide_eq_true_eq] at h
      exact chainB_lastLink u (y :: r) x dst h.2 (by simpa using hl)

theorem chainB_retarget (u v : Updater) :
    ∀ (l : List Nat) (x dst dst' : Nat),
      l.getLast? = some x → l.Nodup →
      (∀ y ∈ l, y ≠ x → (getNode v y).next = (getNode u y).next) →
      (getNode v x).next = some dst' →
      chainB u l dst = true → chainB v l dst' = true
  | [], x, dst, dst', hl, _, _, _, _ => by simp at hl
  | [z], x, dst, dst', hl, _, _, hx, h => by
      simp at hl
      subst hl
      simp [chainB, hx]
  | z :: y :: r, x, dst, dst', hl, hnd, hint, hx, h => by
      simp only [chainB, Bool.and_eq_true, decide_eq_true_eq] at h
      have hxl : x ∈ y :: r := by
        have : (y :: r).getLast? = some x := by simpa using hl
        exact List.mem_of_mem_getLast? this
      have hz : z ≠ x := by
        intro hzx
        subst hzx
        exact (List.nodup_cons.mp hnd).1 hxl
      have hz2 : (getNode v z).next = some y := by
        rw [hint z (by simp) hz]
        exact h.1
      simp only [chainB, Bool.and_eq_true, decide_eq_true_eq]
      exact ⟨hz2, chainB_retarget u v (y :: r) x dst dst' (by simpa using hl)
        (List.nodup_cons.mp hnd).2
        (fun w hw hwx => hint w (by simp [hw]) hwx) hx h.2⟩

theorem ringShape_nil_iff (u : Updater) :
    ringShape u [] = true ↔ u.queue.lastNode = none := by
  unfold ringShape
  simp

theorem ringShape_nonempty (u : Updater) (x : Nat) (l : List Nat)
    (h : ringShape u (x :: l) = true) :
    ∃ t, u.queue.lastNode = some t ∧ (x :: l).getLast? = some t ∧
      (x :: l).Nodup ∧ (∀ y ∈ x :: l, y < u.nodes.length) ∧
      chainB u (x :: l) x = true := by
  unfold ringShape at h
  simp only [Bool.and_eq_true, decide_eq_true_eq, List.all_eq_true] at h
  obtain ⟨⟨⟨h1, h2⟩, h3⟩, h4⟩ := h
  refine ⟨(x :: l).getLast (by simp), ?_, rfl, h2, fun y hy => by simpa using h3 y hy, h4⟩
  rw [h1]
  rfl

theorem ringShape_intro (u : Updater) (x : Nat) (l : List Nat) (t : Nat)
    (hlast : u.queue.lastNode = some t) (hg : (x :: l).getLast? = some t)
    (hnd : (x :: l).Nodup) (hb : ∀ y ∈ x :: l, y < u.nodes.length)
    (hc : chainB u (x :: l) x = true) : ringShape u (x :: l) = true := by
  unfold ringShape
  simp only [Bool.and_eq_true, decide_eq_true_eq, List.all_eq_true]
  exact ⟨⟨⟨by rw [hlast, hg], hnd⟩, fun y hy => by simpa using hb y hy⟩, hc⟩

theorem ringWF_shape (u : Updater) (l : List Nat) (h : ringWF u l = true) :
    ringShape u l = true := by
  unfold ringWF at h
  exact ((Bool.and_eq_true _ _).mp h).1

theorem ringWF_cursor_nonempty (u : Updater) (x : Nat) (l : List Nat)
    (h : ringWF u (x :: l) = true) :
    ∃ c, u.queue.cursorNode = some c ∧ c ∈ x :: l := by
  unfold ringWF at h
  obtain ⟨h1, h2⟩ := (Bool.and_eq_true _ _).mp h
  match hc : u.queue.cursorNode with
  | none => rw [hc] at h2; simp at h2
  | some c =>
      rw [hc] at h2
      exact ⟨c, rfl, by simpa using h2⟩

theorem ringWF_intro (u : Updater) (l : List Nat) (c : Nat)
    (hs : ringShape u l = true) (hc : u.queue.cursorNode = some c) (hm : c ∈ l) :
    ringWF u l = true := by
  unfold ringWF
  rw [hc]
  simp [hs, hm]

theorem ringWF_nil_intro (u : Updater)
    (hl : u.queue.lastNode = none) (hc : u.queue.cursorNode = none) :
    ringWF u [] = true := by
  unfold ringWF
  rw [hc]
  simp [(ringShape_nil_iff u).mpr hl]

theorem chain_mid (u : Updater) :
    ∀ (p : List Nat) (c x : Nat) (q : List Nat) (dst : Nat),
      chainB u (p ++ c :: x :: q) dst = true → (getNode u c).next = some x
  | [], c, x, q, dst, h => by
      simp only [List.nil_append, chainB, Bool.and_eq_true, decide_eq_true_eq] at h
      exact h.1
  | [z], c, x, q, dst, h => by
      simp only [List.cons_append, List.nil_append, chainB, Bool.and_eq_true,
        decide_eq_true_eq] at h
      exact h.2.1
  | z :: z2 :: p, c, x, q, dst, h => by
      simp only [List.cons_append, chainB, Bool.and_eq_true, decide_eq_true_eq] at h
      exact chain_mid u (z2 :: p) c x q dst (by
        simp only [List.cons_append]
        exact h.2)

theorem mem_split_last (l : List Nat) (c : Nat) (hc : c ∈ l) :
    l.getLast? = some c ∨ ∃ p x q, l = p ++ c :: x :: q := by
  obtain ⟨s, t, rfl⟩ := List.append_of_mem hc
  match t with
  | [] =>
      left
      simp [List.getLast?_append, List.getLast?_cons, Option.or_eq_some]
  | x :: q =>
      right
      exact ⟨s, x, q, rfl⟩

theorem ringAt_to_ringWF (u : Updater) (done todo : List Nat)
    (h : ringAt u done todo = true) : ringWF u (done ++ todo) = true := by
  unfold ringAt at h
  obtain ⟨hs, hc⟩ := (Bool.and_eq_true _ _).mp h
  match hd : done.getLast? with
  | some c =>
      rw [hd] at hc
      simp only [decide_eq_true_eq] at hc
      have hcm : c ∈ done ++ todo := by
        exact List.mem_append_left todo (List.mem_of_mem_getLast? hd)
      exact ringWF_intro _ _ c hs hc hcm
  | none =>
      rw [hd] at hc
      simp only [decide_eq_true_eq] at hc
      have hdone : done = [] := List.getLast?_eq_none_iff.mp hd
      subst hdone
      match ht : todo with
      | [] =>
          have hln : u.queue.lastNode = none := (ringShape_nil_iff u).mp (by simpa using hs)
          exact ringWF_nil_intro u hln (by rw [hc, hln])
      | x :: rest =>
          obtain ⟨t, hlast, hg, _, _, _⟩ := ringShape_nonempty u x rest (by simpa using hs)
          refine ringWF_intro _ _ t (by simpa using hs) (by rw [hc, hlast]) ?_
          simpa using List.mem_of_mem_getLast? hg

theorem concat_of_getLast? {l : List Nat} {a : Nat} (h : l.getLast? = some a) :
    ∃ p, l = p ++ [a] := by
  rcases List.eq_nil_or_concat l with rfl | ⟨p, b, rfl⟩
  · simp at h
  · have hb : b = a := by
      have h2 : some b = some a := by rw [← h]; simp
      exact Option.some.inj h2
    exact ⟨p, by rw [hb, List.concat_eq_append]⟩

theorem getLast?_append_cons (l1 : List Nat) (x : Nat) (l2 : List Nat) :
    (l1 ++ x :: l2).getLast? = (x :: l2).getLast? := by
  simp [List.getLast?_append, List.getLast?_cons, Option.or_eq_some]

theorem ringAt_elim_nil (u : Updater) (todo : List Nat)
    (h : ringAt u [] todo = true) :
    ringShape u todo = true ∧ u.queue.cursorNode = u.queue.lastNode := by
  unfold ringAt at h
  obtain ⟨hs, hc⟩ := (Bool.and_eq_true _ _).mp h
  simp only [List.nil_append] at hs
  simp only [List.getLast?_nil, decide_eq_true_eq] at hc
  exact ⟨hs, hc⟩

theorem ringAt_elim_last (u : Updater) (done todo : List Nat) (c : Nat)
    (hd : done.getLast? = some c) (h : ringAt u done todo = true) :
    ringShape u (done ++ todo) = true ∧ u.queue.cursorNode = some c := by
  unfold ringAt at h
  obtain ⟨hs, hc⟩ := (Bool.and_eq_true _ _).mp h
  rw [hd] at hc
  simp only [decide_eq_true_eq] at hc
  exact ⟨hs, hc⟩

theorem ringAt_intro_nil (u : Updater) (todo : List Nat)
    (hs : ringShape u todo = true) (hc : u.queue.cursorNode = u.queue.lastNode) :
    ringAt u [] todo = true := by
  unfold ringAt
  simp only [List.nil_append, List.getLast?_nil]
  rw [hs]
  simp [hc]

theorem ringAt_intro_last (u : Updater) (done todo : List Nat) (c : Nat)
    (hd : done.getLast? = some c)
    (hs : ringShape u (done ++ todo) = true) (hc : u.queue.cursorNode = some c) :
    ringAt u done todo = true := by
  unfold ringAt
  rw [hd, hs]
  simp [hc]

theorem remove_step_start (u : Updater) (x : Nat) (rest : List Nat)
    (h : ringAt u [] (x :: rest) = true) :
    ∃ c, u.queue.cursorNode = some c ∧ (getNode u c).next = some x ∧
      (rest = [] →
        (removeCurrentNode u).queue.lastNode = none ∧
        (removeCurrentNode u).queue.cursorNode = none ∧
        ringWF (removeCurrentNode u) [] = true) ∧
      (rest ≠ [] →
        ringAt (removeCurrentNode u) [] rest = true ∧
        (removeCurrentNode u).queue.lastNode = u.queue.lastNode ∧
        (removeCurrentNode u).queue.cursorNode = u.queue.cursorNode) := by
  obtain ⟨hs, hcl⟩ := ringAt_elim_nil u (x :: rest) h
  obtain ⟨t, hlast, hg, hnd, hb, hc⟩ := ringShape_nonempty u x rest hs
  have htx : (getNode u t).next = some x := chainB_lastLink u (x :: rest) t x hc hg
  have hcur : u.queue.cursorNode = some t := by rw [hcl, hlast]
  refine ⟨t, hcur, htx, ?_, ?_⟩
  · rintro rfl
    -- singleton ring: x is both head and tail
    have htx2 : x = t := by simpa using hg
    subst htx2
    have hrw : removeCurrentNode u =
        { setNext u x none with
          queue := { (setNext u x none).queue with lastNode := none, cursorNode := none } } := by
      unfold removeCurrentNode
      simp only [hlast, if_pos htx]
    rw [hrw]
    refine ⟨rfl, rfl, ?_⟩
    exact ringWF_nil_intro _ rfl rfl
  · intro hrest
    match rest, hrest with
    | y :: q, _ =>
      have htmem : t ∈ y :: q := by
        have : (y :: q).getLast? = some t := by simpa using hg
        exact List.mem_of_mem_getLast? this
      have hxt : x ≠ t := by
        intro hxeq
        exact (List.nodup_cons.mp hnd).1 (hxeq ▸ htmem)
      have hcond : ¬((getNode u t).next = some t) := by
        rw [htx]
        intro hcc
        exact hxt (Option.some.inj hcc)
      have hxy : (getNode u x).next = some y := by
        simpa using chain_mid u [] x y q x hc
      have hrw : removeCurrentNode u = setNext u t (getNode u x).next := by
        unfold removeCurrentNode
        simp only [hlast, hcur, htx, Option.some.injEq, if_neg hxt]
      rw [hrw, hxy]
      have hlen : (setNext u t (some y)).nodes.length = u.nodes.length := setNext_length u t (some y)
      have hq : (setNext u t (some y)).queue = u.queue := setNext_queue u t (some y)
      refine ⟨?_, by rw [hq], by rw [hq]⟩
      have htlt : t < u.nodes.length := hb t (by simp [htmem])
      have hshape : ringShape (setNext u t (some y)) (y :: q) = true := by
        refine ringShape_intro _ y q t (by rw [hq, hlast]) (by simpa using hg)
          (List.nodup_cons.mp hnd).2 (fun z hz => by rw [hlen]; exact hb z (by simp [hz])) ?_
        refine chainB_retarget u _ (y :: q) t x y (by simpa using hg)
          (List.nodup_cons.mp hnd).2 ?_ ?_ ?_
        · intro z hz hzt
          rw [getNode_setNext]
          rw [if_neg]
          intro hcc
          exact hzt hcc.1.symm
        · rw [getNode_setNext, if_pos ⟨rfl, htlt⟩]
        · have : chainB u (x :: y :: q) x =
              (decide ((getNode u x).next = some y) && chainB u (y :: q) x) := rfl
          rw [this] at hc
          exact ((Bool.and_eq_true _ _).mp hc).2
      exact ringAt_intro_nil _ _ hshape (by rw [hq, hcur, hlast])


theorem remove_step_mid (u : Updater) (d : Nat) (ds : List Nat) (x : Nat) (rest : List Nat)
    (h : ringAt u (d :: ds) (x :: rest) = true) :
    ∃ c, u.queue.cursorNode = some c ∧ (getNode u c).next = some x ∧
      (rest = [] →
        ringAt (removeCurrentNode u) [] (d :: ds) = true ∧
        (removeCurrentNode u).queue.lastNode = some c ∧
        (removeCurrentNode u).queue.cursorNode = some c) ∧
      (rest ≠ [] →
        ringAt (removeCurrentNode u) (d :: ds) rest = true ∧
        (removeCurrentNode u).queue.lastNode = u.queue.lastNode ∧
        (removeCurrentNode u).queue.cursorNode = u.queue.cursorNode) := by
  obtain ⟨c, hcl⟩ : ∃ c, (d :: ds).getLast? = some c := by
    match hq : (d :: ds).getLast? with
    | some c => exact ⟨c, rfl⟩
    | none => simp at hq
  obtain ⟨hs, hcur⟩ := ringAt_elim_last u (d :: ds) (x :: rest) c hcl h
  have hs' : ringShape u (d :: (ds ++ x :: rest)) = true := by simpa using hs
  obtain ⟨t, hlast, hg, hnd, hb, hcch⟩ := ringShape_nonempty u d (ds ++ x :: rest) hs'
  obtain ⟨p, hdc⟩ := concat_of_getLast? hcl
  have hnd2 : ((d :: ds) ++ x :: rest).Nodup := by simpa using hnd
  obtain ⟨hndL, hndR, hdisj⟩ := List.nodup_append.mp hnd2
  have hcc : chainB u ((d :: ds) ++ x :: rest) d = true := by simpa using hcch
  have hnx : (getNode u c).next = some x := by
    apply chain_mid u p c x rest d
    have hform : (d :: ds) ++ x :: rest = p ++ c :: x :: rest := by
      rw [hdc]
      simp
    rw [← hform]
    exact hcc
  have hcmem : c ∈ d :: ds := List.mem_of_mem_getLast? hcl
  have hclt : c < u.nodes.length := hb c (by simpa using List.mem_append_left (x :: rest) hcmem)
  refine ⟨c, hcur, hnx, ?_, ?_⟩
  · rintro rfl
    -- removed node is the tail: lastNode moves back to the cursor
    have ht : t = x := by
      have h1 : ((d :: ds) ++ [x]).getLast? = some x := by rw [List.getLast?_concat]
      have hg2 : ((d :: ds) ++ [x]).getLast? = some t := by simpa using hg
      exact Option.some.inj (hg2.symm.trans h1)
    have htail : (getNode u t).next = some d := by
      apply chainB_lastLink u ((d :: ds) ++ [x]) t d hcc
      simpa using hg
    have hdt : d ≠ t := by
      intro hdt
      exact hdisj (List.mem_cons_self d ds) (by simp [← hdt, ht.symm.trans hdt.symm])
    have hcond : ¬((getNode u t).next = some t) := by
      rw [htail]
      intro hcc2
      exact hdt (Option.some.inj hcc2)
    have hnxt : (getNode u c).next = some t := by
      rw [hnx, ht]
    have hrw : removeCurrentNode u =
        setNext { u with queue := { u.queue with lastNode := some c } } c
          ((getNode u t).next) := by
      unfold removeCurrentNode
      simp only [hlast]
      rw [if_neg hcond]
      simp only [hcur, hnxt]
      simp
      rfl
    rw [hrw, htail]
    have hq2 : (setNext { u with queue := { u.queue with lastNode := some c } } c
        (some d)).queue = { u.queue with lastNode := some c } := rfl
    refine ⟨?_, by rw [hq2], by rw [hq2]; exact hcur⟩
    have hchainL : chainB u (d :: ds) x = true := by
      have hsplit := chainB_append u (d :: ds) x [] d
      rw [hsplit] at hcc
      exact ((Bool.and_eq_true _ _).mp hcc).1
    have hshape : ringShape (setNext { u with queue := { u.queue with lastNode := some c } } c
        (some d)) (d :: ds) = true := by
      refine ringShape_intro _ d ds c (by rw [hq2]) hcl hndL
        (fun z hz => by rw [setNext_length]; exact hb z (by simpa using List.mem_append_left (x :: []) hz)) ?_
      refine chainB_retarget u _ (d :: ds) c x d hcl hndL ?_ ?_ hchainL
      · intro z hz hzc
        rw [getNode_setNext]
        rw [if_neg]
        · rfl
        · intro hcc2
          exact hzc hcc2.1.symm
      · rw [getNode_setNext, if_pos ⟨rfl, hclt⟩]
    refine ringAt_intro_nil _ _ hshape ?_
    rw [hq2, hcur]
  · intro hrest
    match rest, hrest with
    | y :: q, _ =>
      have hgyq : (y :: q).getLast? = some t := by
        have hg2 := hg
        have hcast2 : d :: (ds ++ x :: y :: q) = (d :: ds ++ [x]) ++ y :: q := by simp
        rw [hcast2, getLast?_append_cons] at hg2
        exact hg2
      have htmem : t ∈ y :: q := List.mem_of_mem_getLast? hgyq
      have hxt : x ≠ t := by
        intro hxeq
        exact (List.nodup_cons.mp hndR).1 (hxeq ▸ htmem)
      have hdt : d ≠ t := by
        intro hdt
        exact hdisj (List.mem_cons_self d ds) (by simp [hdt, htmem])
      have htail : (getNode u t).next = some d := by
        apply chainB_lastLink u ((d :: ds) ++ x :: y :: q) t d hcc
        simpa using hg
      have hcond : ¬((getNode u t).next = some t) := by
        rw [htail]
        intro hcc2
        exact hdt (Option.some.inj hcc2)
      have hxy : (getNode u x).next = some y := chain_mid u (d :: ds) x y q d hcc
      have hcy : c ∉ y :: q := by
        intro hcy
        exact hdisj hcmem (by simp [hcy])
      have hrw : removeCurrentNode u = setNext u c ((getNode u x).next) := by
        unfold removeCurrentNode
        simp only [hlast]
        rw [if_neg hcond]
        simp only [hcur, hnx, Option.some.injEq, if_neg hxt]
      rw [hrw, hxy]
      have hq2 : (setNext u c (some y)).queue = u.queue := rfl
      refine ⟨?_, by rw [hq2], by rw [hq2]⟩
      have hsplitL := chainB_append u (d :: ds) x (y :: q) d
      rw [hsplitL] at hcc
      obtain ⟨hchainL, hchainR⟩ := (Bool.and_eq_true _ _).mp hcc
      have hchainR2 : chainB u (y :: q) d = true := by
        have : chainB u (x :: y :: q) d =
            (decide ((getNode u x).next = some y) && chainB u (y :: q) d) := rfl
        rw [this] at hchainR
        exact ((Bool.and_eq_true _ _).mp hchainR).2
      have hshape : ringShape (setNext u c (some y)) ((d :: ds) ++ y :: q) = true := by
        have hcast : (d :: ds) ++ y :: q = d :: (ds ++ y :: q) := by simp
        rw [hcast]
        refine ringShape_intro _ d (ds ++ y :: q) t (by rw [hq2, hlast])
          (by rw [show d :: (ds ++ y :: q) = (d :: ds) ++ y :: q by simp,
                getLast?_append_cons]
              exact hgyq) ?_ ?_ ?_
        · have hsub : List.Sublist ((d :: ds) ++ y :: q) ((d :: ds) ++ x :: y :: q) :=
            List.Sublist.append_left (List.sublist_cons_of_sublist x (List.Sublist.refl _)) (d :: ds)
          simpa using hnd2.sublist hsub
        · intro z hz
          rw [setNext_length]
          apply hb
          simp only [List.mem_cons, List.mem_append] at hz ⊢
          tauto
        · rw [show d :: (ds ++ y :: q) = (d :: ds) ++ y :: q by simp]
          rw [chainB_append _ (d :: ds) y q d]
          refine (Bool.and_eq_true _ _).mpr ⟨?_, ?_⟩
          · refine chainB_retarget u _ (d :: ds) c x y hcl hndL ?_ ?_ hchainL
            · intro z hz hzc
              rw [getNode_setNext]
              rw [if_neg]
              intro hcc2
              exact hzc hcc2.1.symm
            · rw [getNode_setNext, if_pos ⟨rfl, hclt⟩]
          · rw [chainB_congr u _ (y :: q) d ?_]
            · exact hchainR2
            · intro z hz
              rw [getNode_setNext]
              rw [if_neg]
              intro hcc2
              exact hcy (hcc2.1 ▸ hz)
      exact ringAt_intro_last _ (d :: ds) (y :: q) c hcl hshape (by rw [hq2, hcur])

theorem append_empty_spec (u : Updater) (i : Nat)
    (hlast : u.queue.lastNode = none) (hi : i < u.nodes.length) :
    (getNode (appendNodeToQueue u i) i).next = some i ∧
    (appendNodeToQueue u i).queue.lastNode = some i ∧
    (appendNodeToQueue u i).queue.cursorNode = some i ∧
    (appendNodeToQueue u i).queue.state = u.queue.state ∧
    ringWF (appendNodeToQueue u i) [i] = true := by
  have hrw : appendNodeToQueue u i =
      { setNext u i (some i) with
        queue := { (setNext u i (some i)).queue with
          lastNode := some i, cursorNode := some i } } := by
    unfold appendNodeToQueue
    simp only [hlast]
  rw [hrw]
  have hget : (getNode (setNext u i (some i)) i).next = some i := by
    rw [getNode_setNext, if_pos ⟨rfl, hi⟩]
  refine ⟨hget, rfl, rfl, rfl, ?_⟩
  refine ringWF_intro _ [i] i ?_ rfl (by simp)
  refine ringShape_intro _ i [] i rfl (by simp) (by simp)
    (by intro y hy
        simp at hy
        subst hy
        rw [setNext_length]
        exact hi) ?_
  unfold chainB
  simp only [decide_eq_true_eq]
  exact hget

theorem append_nonempty_spec (u : Updater) (i t : Nat)
    (hlast : u.queue.lastNode = some t) (hit : i ≠ t)
    (hi : i < u.nodes.length) (ht : t < u.nodes.length) :
    (getNode (appendNodeToQueue u i) i).next = (getNode u t).next ∧
    (getNode (appendNodeToQueue u i) t).next = some i ∧
    (∀ j, j ≠ i → j ≠ t → getNode (appendNodeToQueue u i) j = getNode u j) ∧
    (appendNodeToQueue u i).queue.lastNode = some i ∧
    (appendNodeToQueue u i).queue.cursorNode =
      (if u.queue.cursorNode = some t then some i else u.queue.cursorNode) ∧
    (appendNodeToQueue u i).queue.state = u.queue.state ∧
    (appendNodeToQueue u i).nodes.length = u.nodes.length := by
  have hrw : appendNodeToQueue u i =
      (if u.queue.cursorNode = some t then
        { setNext (setNext u i (getNode u t).next) t (some i) with
          queue := { (setNext (setNext u i (getNode u t).next) t (some i)).queue with
            cursorNode := some i, lastNode := some i } }
      else
        { setNext (setNext u i (getNode u t).next) t (some i) with
          queue := { (setNext (setNext u i (getNode u t).next) t (some i)).queue with
            lastNode := some i } }) := by
    unfold appendNodeToQueue
    simp only [hlast]
    split
    · rfl
    · rfl
  have hlen1 : (setNext u i (getNode u t).next).nodes.length = u.nodes.length :=
    setNext_length u i (getNode u t).next
  have hgi : (getNode (setNext (setNext u i (getNode u t).next) t (some i)) i).next =
      (getNode u t).next := by
    rw [getNode_setNext]
    rw [if_neg (fun hc => hit hc.1.symm)]
    rw [getNode_setNext, if_pos ⟨rfl, hi⟩]
  have hgt : (getNode (setNext (setNext u i (getNode u t).next) t (some i)) t).next =
      some i := by
    rw [getNode_setNext, if_pos ⟨rfl, by rw [hlen1]; exact ht⟩]
  have hgj : ∀ j, j ≠ i → j ≠ t →
      getNode (setNext (setNext u i (getNode u t).next) t (some i)) j = getNode u j := by
    intro j hji hjt
    rw [getNode_setNext, if_neg (fun hc => hjt hc.1.symm),
      getNode_setNext, if_neg (fun hc => hji hc.1.symm)]
  rw [hrw]
  split
  · exact ⟨hgi, hgt, hgj, rfl, rfl, rfl, by simp [setNext_length]⟩
  · exact ⟨hgi, hgt, hgj, rfl, rfl, rfl, by simp [setNext_length]⟩

theorem append_ringWF (u : Updater) (l : List Nat) (i : Nat)
    (h : ringWF u l = true) (hi : i < u.nodes.length) (hmem : i ∉ l) :
    ringWF (appendNodeToQueue u i) (l ++ [i]) = true := by
  match l with
  | [] =>
      have hlast : u.queue.lastNode = none :=
        (ringShape_nil_iff u).mp (ringWF_shape u [] h)
      obtain ⟨_, _, _, _, hwf⟩ := append_empty_spec u i hlast hi
      simpa using hwf
  | h1 :: rest =>
      obtain ⟨t, hlast, hg, hnd, hb, hcch⟩ :=
        ringShape_nonempty u h1 rest (ringWF_shape u (h1 :: rest) h)
      obtain ⟨c, hcur, hcmem⟩ := ringWF_cursor_nonempty u h1 rest h
      have htmem : t ∈ h1 :: rest := List.mem_of_mem_getLast? hg
      have ht : t < u.nodes.length := hb t htmem
      have hit : i ≠ t := fun hc => hmem (hc ▸ htmem)
      obtain ⟨hgi, hgt, hgj, hlast', hcur', _, hlen'⟩ :=
        append_nonempty_spec u i t hlast hit hi ht
      have hhead : (getNode u t).next = some h1 := chainB_lastLink u (h1 :: rest) t h1 hcch hg
      have hshape : ringShape (appendNodeToQueue u i) ((h1 :: rest) ++ [i]) = true := by
        rw [show (h1 :: rest) ++ [i] = h1 :: (rest ++ [i]) by simp]
        refine ringShape_intro _ h1 (rest ++ [i]) i hlast'
          (by rw [show h1 :: (rest ++ [i]) = (h1 :: rest) ++ [i] by simp, List.getLast?_concat])
          ?_ ?_ ?_
        · rw [show h1 :: (rest ++ [i]) = (h1 :: rest) ++ [i] by simp]
          refine List.nodup_append.mpr ⟨hnd, by simp, ?_⟩
          intro z hz
          simp only [List.mem_singleton]
          intro hzi
          exact hmem (hzi ▸ hz)
        · intro z hz
          rw [hlen']
          rcases (by simpa using hz : z = h1 ∨ z ∈ rest ∨ z = i) with hz1 | hz2 | hz3
          · exact hb z (by simp [hz1])
          · exact hb z (by simp [hz2])
          · exact hz3 ▸ hi
        · rw [show h1 :: (rest ++ [i]) = (h1 :: rest) ++ i :: [] by simp]
          rw [chainB_append _ (h1 :: rest) i [] h1]
          refine (Bool.and_eq_true _ _).mpr ⟨?_, ?_⟩
          · refine chainB_retarget u _ (h1 :: rest) t h1 i hg hnd ?_ ?_ hcch
            · intro z hz hzt
              rw [hgj z (fun hc => hmem (hc ▸ hz)) hzt]
            · exact hgt
          · unfold chainB
            simp only [decide_eq_true_eq]
            rw [hgi, hhead]
      by_cases hct : u.queue.cursorNode = some t
      · refine ringWF_intro _ _ i hshape ?_ (by simp)
        rw [hcur', if_pos hct]
      · refine ringWF_intro _ _ c hshape ?_ ?_
        · rw [hcur', if_neg hct]
          exact hcur
        · exact List.mem_append_left _ hcmem

/-! ## Congruence and frame lemmas for the traversal -/

theorem getNode_congr (u v : Updater) (hn : v.nodes = u.nodes) (i : Nat) :
    getNode v i = getNode u i := by
  unfold getNode
  rw [hn]

theorem ringShape_congr (u v : Updater) (l : List Nat)
    (hn : v.nodes = u.nodes) (hl : v.queue.lastNode = u.queue.lastNode) :
    ringShape v l = ringShape u l := by
  cases l with
  | nil =>
      simp only [ringShape]
      rw [hl]
  | cons h rest =>
      simp only [ringShape]
      rw [hl, hn, chainB_congr u v (h :: rest) h (fun x _ => by rw [getNode_congr u v hn])]

theorem ringAt_congr (u v : Updater) (done todo : List Nat)
    (hn : v.nodes = u.nodes) (hl : v.queue.lastNode = u.queue.lastNode)
    (hc : v.queue.cursorNode = u.queue.cursorNode) :
    ringAt v done todo = ringAt u done todo := by
  unfold ringAt
  rw [ringShape_congr u v (done ++ todo) hn hl, hc, hl]

theorem visitEv_congr (u v : Updater) (q : Option Nat) (n : Nat)
    (hn : v.nodes = u.nodes) : visitEv v q n = visitEv u q n := by
  unfold visitEv
  rw [getNode_congr u v hn]

theorem visitEvs_congr (u v : Updater) (q : Option Nat) (l : List Nat)
    (hn : v.nodes = u.nodes) : visitEvs v q l = visitEvs u q l := by
  unfold visitEvs
  exact List.map_congr_left (fun n _ => visitEv_congr u v q n hn)

theorem errsOf_congr (beh : Nat → CbResult) (u v : Updater) (q : Option Nat) (l : List Nat)
    (hn : v.nodes = u.nodes) : errsOf beh v q l = errsOf beh u q l := by
  unfold errsOf
  exact List.filterMap_congr (fun n _ => by rw [getNode_congr u v hn])

theorem flagsB_congr (beh : Nat → CbResult) (u v : Updater) (q : Option Nat) (n : Nat)
    (hn : v.nodes = u.nodes) : flagsB beh v q n = flagsB beh u q n := by
  unfold flagsB
  rw [getNode_congr u v hn]

theorem errsOf_append (beh : Nat → CbResult) (u : Updater) (q : Option Nat)
    (l1 l2 : List Nat) :
    errsOf beh u q (l1 ++ l2) = errsOf beh u q l1 ++ errsOf beh u q l2 := by
  unfold errsOf
  exact List.filterMap_append l1 l2 _

theorem visitEvs_append (u : Updater) (q : Option Nat) (l1 l2 : List Nat) :
    visitEvs u q (l1 ++ l2) = visitEvs u q l1 ++ visitEvs u q l2 := by
  unfold visitEvs
  exact List.map_append _ l1 l2

theorem errsOf_length_le (beh : Nat → CbResult) (u : Updater) (q : Option Nat)
    (l : List Nat) : (errsOf beh u q l).length ≤ l.length :=
  List.length_filterMap_le _ l

theorem split_first (p : Nat → Bool) :
    ∀ l : List Nat, (∀ x ∈ l, p x = false) ∨
      ∃ pre n rest, l = pre ++ n :: rest ∧ (∀ y ∈ pre, p y = false) ∧ p n = true
  | [] => Or.inl (by simp)
  | x :: xs => by
      match hx : p x with
      | true => exact Or.inr ⟨[], x, xs, by simp, by simp, hx⟩
      | false =>
          rcases split_first p xs with hall | ⟨pre, n, rest, hsp, hpre, hn⟩
          · left
            intro z hz
            rcases List.mem_cons.mp hz with rfl | hz2
            · exact hx
            · exact hall z hz2
          · right
            refine ⟨x :: pre, n, rest, by simp [hsp], ?_, hn⟩
            intro y hy
            rcases List.mem_cons.mp hy with rfl | hy2
            · exact hx
            · exact hpre y hy2

theorem completeUpdate_queue (u : Updater) : (completeUpdate u).1.queue = u.queue := rfl

theorem completeUpdate_states (u : Updater) : (completeUpdate u).1.states = u.states := rfl

theorem completeUpdate_isWorking (u : Updater) :
    (completeUpdate u).1.isWorking = u.isWorking := rfl

theorem completeUpdate_nodes (u : Updater) : (completeUpdate u).1.nodes = u.nodes := rfl

theorem doWorkLoop_frames (beh : Nat → CbResult) :
    ∀ (fuel : Nat) (u : Updater),
      (doWorkLoop beh fuel u).1.queue.state = u.queue.state ∧
      (doWorkLoop beh fuel u).1.states = u.states
  | 0, u => ⟨rfl, rfl⟩
  | fuel + 1, u => by
      simp only [doWorkLoop]
      split
      · exact ⟨rfl, rfl⟩
      · split
        · exact ⟨rfl, rfl⟩
        · split
          · split
            · simp [removeCurrentNode_state, removeCurrentNode_states]
            · have ih := doWorkLoop_frames beh fuel (removeCurrentNode u)
              simp only []
              rw [ih.1, ih.2, removeCurrentNode_state, removeCurrentNode_states]
              exact ⟨rfl, rfl⟩
          · split
            · constructor
              · show (stepNode beh u _).1.queue.state = u.queue.state
                rw [stepNode_queue]
              · show (stepNode beh u _).1.states = u.states
                rw [stepNode_states]
            · split
              · constructor
                · show (stepNode beh u _).1.queue.state = u.queue.state
                  rw [stepNode_queue]
                · show (stepNode beh u _).1.states = u.states
                  rw [stepNode_states]
              · have ih := doWorkLoop_frames beh fuel
                constructor
                · rw [(ih _).1]
                  show (stepNode beh u _).1.queue.state = u.queue.state
                  rw [stepNode_queue]
                · rw [(ih _).2]
                  show (stepNode beh u _).1.states = u.states
                  rw [stepNode_states]

theorem ringAt_cursor_next (u : Updater) (done : List Nat) (n : Nat) (todo2 : List Nat)
    (h : ringAt u done (n :: todo2) = true) :
    ∃ c, u.queue.cursorNode = some c ∧ (getNode u c).next = some n ∧
      (todo2 = [] → u.queue.lastNode = some n) ∧
      (todo2 ≠ [] → u.queue.lastNode ≠ some n) := by
  match done with
  | [] =>
      obtain ⟨hs, hcl⟩ := ringAt_elim_nil u (n :: todo2) h
      obtain ⟨t, hlast, hg, hnd, hb, hc⟩ := ringShape_nonempty u n todo2 hs
      refine ⟨t, by rw [hcl, hlast], chainB_lastLink u (n :: todo2) t n hc hg, ?_, ?_⟩
      · rintro rfl
        have htn : n = t := by simpa using hg
        rw [hlast, htn]
      · intro hne
        match todo2, hne with
        | y :: q, _ =>
          have hg2 : (y :: q).getLast? = some t := by simpa using hg
          have htm : t ∈ y :: q := List.mem_of_mem_getLast? hg2
          have hnt : n ≠ t := by
            intro hc2
            exact (List.nodup_cons.mp hnd).1 (hc2 ▸ htm)
          rw [hlast]
          intro hc3
          exact hnt (Option.some.inj hc3).symm
  | d :: ds =>
      obtain ⟨c, hcl⟩ : ∃ c, (d :: ds).getLast? = some c := by
        match hq : (d :: ds).getLast? with
        | some c => exact ⟨c, rfl⟩
        | none => simp at hq
      obtain ⟨hs, hcur⟩ := ringAt_elim_last u (d :: ds) (n :: todo2) c hcl h
      have hs' : ringShape u (d :: (ds ++ n :: todo2)) = true := by simpa using hs
      obtain ⟨t, hlast, hg, hnd, hb, hcch⟩ := ringShape_nonempty u d (ds ++ n :: todo2) hs'
      obtain ⟨p, hdc⟩ := concat_of_getLast? hcl
      have hcc : chainB u ((d :: ds) ++ n :: todo2) d = true := by simpa using hcch
      have hnd2 : ((d :: ds) ++ n :: todo2).Nodup := by simpa using hnd
      obtain ⟨hndL, hndR, hdisj⟩ := List.nodup_append.mp hnd2
      have hnx : (getNode u c).next = some n := by
        apply chain_mid u p c n todo2 d
        have hform : (d :: ds) ++ n :: todo2 = p ++ c :: n :: todo2 := by
          rw [hdc]
          simp
        rw [← hform]
        exact hcc
      refine ⟨c, hcur, hnx, ?_, ?_⟩
      · rintro rfl
        have htn : t = n := by
          have h1 : ((d :: ds) ++ [n]).getLast? = some n := by rw [List.getLast?_concat]
          have hg2 : ((d :: ds) ++ [n]).getLast? = some t := by simpa using hg
          exact Option.some.inj (hg2.symm.trans h1)
        rw [hlast, htn]
      · intro hne
        match todo2, hne with
        | y :: q, _ =>
          have hg2 : (n :: y :: q).getLast? = some t := by
            have hcast : d :: (ds ++ n :: y :: q) = (d :: ds) ++ n :: y :: q := by simp
            have hg3 := hg
            rw [hcast, getLast?_append_cons] at hg3
            exact hg3
          have htm : t ∈ y :: q := List.mem_of_mem_getLast? (by simpa using hg2)
          have hnt : n ≠ t := by
            intro hc2
            exact (List.nodup_cons.mp hndR).1 (hc2 ▸ htm)
          rw [hlast]
          intro hc3
          exact hnt (Option.some.inj hc3).symm

theorem ringAt_shape (u : Updater) (done todo : List Nat) (h : ringAt u done todo = true) :
    ringShape u (done ++ todo) = true := by
  unfold ringAt at h
  exact ((Bool.and_eq_true _ _).mp h).1


theorem advanceCursor_state (u : Updater) (n : Nat) :
    (advanceCursor u n).queue.state = u.queue.state := rfl

theorem advanceCursor_lastNode (u : Updater) (n : Nat) :
    (advanceCursor u n).queue.lastNode = u.queue.lastNode := rfl

theorem advanceCursor_cursor (u : Updater) (n : Nat) :
    (advanceCursor u n).queue.cursorNode = some n := rfl

theorem advanceCursor_nodes (u : Updater) (n : Nat) :
    (advanceCursor u n).nodes = u.nodes := rfl

theorem advanceCursor_states (u : Updater) (n : Nat) :
    (advanceCursor u n).states = u.states := rfl

theorem advanceCursor_isWorking (u : Updater) (n : Nat) :
    (advanceCursor u n).isWorking = u.isWorking := rfl

theorem advanceCursor_caughtErrors (u : Updater) (n : Nat) :
    (advanceCursor u n).caughtErrors = u.caughtErrors := rfl

theorem workLoop_noflag (beh : Nat → CbResult) :
    ∀ (todo done : List Nat) (fuel : Nat) (u : Updater),
      ringAt u done todo = true →
      (∀ n ∈ todo, (getNode u n).live = true) →
      (∀ n ∈ todo, flagsB beh u u.queue.state n = false) →
      todo ≠ [] → u.isWorking = false → todo.length ≤ fuel →
      ∃ F, doWorkLoop beh fuel u = (F, visitEvs u u.queue.state todo, false) ∧
        F.queue.state = u.queue.state ∧
        F.states = u.states ∧
        F.isWorking = false ∧
        F.caughtErrors = u.caughtErrors ++ errsOf beh u u.queue.state todo ∧
        F.queue.cursorNode = F.queue.lastNode ∧
        F.queue.lastNode = u.queue.lastNode ∧
        F.nodes = u.nodes
  | [], _, _, _, _, _, _, hne, _, _ => absurd rfl hne
  | [n], done, fuel, u, h, hlive, hflag, _, hw, hfuel => by
      obtain ⟨f, rfl⟩ : ∃ f, fuel = f + 1 := by
        refine ⟨fuel - 1, ?_⟩
        have : 1 ≤ fuel := by simpa using hfuel
        omega
      have hliven : (getNode u n).live = true := hlive n (by simp)
      have hflagn : flagsB beh u u.queue.state n = false := hflag n (by simp)
      obtain ⟨c, hcur, hnext, hlast_if, _⟩ := ringAt_cursor_next u done n [] h
      have hw2 : (advanceCursor (stepNode beh u n).1 n).isWorking = false := by
        rw [advanceCursor_isWorking, stepNode_isWorking beh u n hliven hw]
        exact hflagn
      have hl2 : (advanceCursor (stepNode beh u n).1 n).queue.lastNode = some n := by
        rw [advanceCursor_lastNode, stepNode_queue]
        exact hlast_if rfl
      refine ⟨advanceCursor (stepNode beh u n).1 n, ?_, ?_, ?_, hw2, ?_, ?_, ?_, ?_⟩
      · simp only [doWorkLoop, hcur, hnext]
        rw [if_neg (by rw [hliven]; simp)]
        split
        · rename_i hcontra
          rw [hw2] at hcontra
          exact Bool.noConfusion hcontra
        · split
          · simp [visitEvs, stepNode_ev beh u n hliven]
          · rename_i hcontra
            rw [advanceCursor_cursor, hl2] at hcontra
            exact absurd rfl hcontra
      · rw [advanceCursor_state, stepNode_queue]
      · rw [advanceCursor_states, stepNode_states]
      · rw [advanceCursor_caughtErrors, stepNode_caughtErrors beh u n hliven]
      · rw [advanceCursor_cursor, hl2]
      · rw [advanceCursor_lastNode, stepNode_queue]
      · rw [advanceCursor_nodes, stepNode_nodes]
  | n :: m :: rest2, done, fuel, u, h, hlive, hflag, _, hw, hfuel => by
      obtain ⟨f, rfl⟩ : ∃ f, fuel = f + 1 := by
        refine ⟨fuel - 1, ?_⟩
        have : 1 ≤ fuel := by
          have := hfuel
          simp at this
          omega
        omega
      have hliven : (getNode u n).live = true := hlive n (by simp)
      have hflagn : flagsB beh u u.queue.state n = false := hflag n (by simp)
      obtain ⟨c, hcur, hnext, _, hlast_ne⟩ := ringAt_cursor_next u done n (m :: rest2) h
      have hw2 : (advanceCursor (stepNode beh u n).1 n).isWorking = false := by
        rw [advanceCursor_isWorking, stepNode_isWorking beh u n hliven hw]
        exact hflagn
      have hnodes2 : (advanceCursor (stepNode beh u n).1 n).nodes = u.nodes := by
        rw [advanceCursor_nodes, stepNode_nodes]
      have hl2 : (advanceCursor (stepNode beh u n).1 n).queue.lastNode = u.queue.lastNode := by
        rw [advanceCursor_lastNode, stepNode_queue]
      have hqs2 : (advanceCursor (stepNode beh u n).1 n).queue.state = u.queue.state := by
        rw [advanceCursor_state, stepNode_queue]
      have hrat : ringAt (advanceCursor (stepNode beh u n).1 n) (done ++ [n]) (m :: rest2) = true := by
        refine ringAt_intro_last _ (done ++ [n]) (m :: rest2) n (by rw [List.getLast?_concat]) ?_
          (advanceCursor_cursor _ n)
        rw [show (done ++ [n]) ++ m :: rest2 = done ++ n :: m :: rest2 by simp]
        rw [ringShape_congr u (advanceCursor (stepNode beh u n).1 n)
          (done ++ n :: m :: rest2) hnodes2 hl2]
        exact ringAt_shape u done (n :: m :: rest2) h
      obtain ⟨F, hFeq, hFst, hFss, hFw, hFce, hFcl, hFl, hFn⟩ :=
        workLoop_noflag beh (m :: rest2) (done ++ [n]) f (advanceCursor (stepNode beh u n).1 n)
          hrat
          (by intro z hz
              rw [getNode_congr u _ hnodes2]
              exact hlive z (by simp [hz]))
          (by intro z hz
              rw [flagsB_congr beh u _ _ _ hnodes2, hqs2]
              exact hflag z (by simp [hz]))
          (by simp)
          hw2
          (by have := hfuel
              simp at this ⊢
              omega)
      refine ⟨F, ?_, ?_, ?_, hFw, ?_, hFcl, ?_, ?_⟩
      · simp only [doWorkLoop, hcur, hnext]
        rw [if_neg (by rw [hliven]; simp)]
        split
        · rename_i hcontra
          rw [hw2] at hcontra
          exact Bool.noConfusion hcontra
        · split
          · rename_i hcontra
            rw [advanceCursor_cursor, hl2] at hcontra
            exact absurd hcontra.symm (hlast_ne (by simp))
          · rw [hFeq]
            rw [visitEvs_congr u _ _ _ hnodes2, hqs2]
            rw [stepNode_ev beh u n hliven]
            rfl
      · rw [hFst, hqs2]
      · rw [hFss, advanceCursor_states, stepNode_states]
      · rw [hFce, errsOf_congr beh u _ _ _ hnodes2, hqs2,
          advanceCursor_caughtErrors, stepNode_caughtErrors beh u n hliven,
          List.append_assoc]
        rw [show errsOf beh u u.queue.state [n] ++ errsOf beh u u.queue.state (m :: rest2) =
          errsOf beh u u.queue.state ([n] ++ m :: rest2) from (errsOf_append beh u _ [n] _).symm]
        rfl
      · rw [hFl, hl2]
      · rw [hFn, advanceCursor_nodes, stepNode_nodes]

theorem flagsB_parts (beh : Nat → CbResult) (u : Updater) (q : Option Nat) (n : Nat)
    (h : flagsB beh u q n = true) :
    (getNode u n).live = true ∧ (getNode u n).state ≠ q ∧ beh n = CbResult.callsUpdating := by
  unfold flagsB at h
  simp only [Bool.and_eq_true, Bool.not_eq_true', decide_eq_false_iff_not,
    decide_eq_true_eq] at h
  exact ⟨h.1.1, h.1.2, h.2⟩

theorem errsOf_flagged (beh : Nat → CbResult) (u : Updater) (q : Option Nat) (n : Nat)
    (h : flagsB beh u q n = true) : errsOf beh u q [n] = [] := by
  obtain ⟨h1, h2, h3⟩ := flagsB_parts beh u q n h
  unfold errsOf
  simp [h1, h2, h3, List.filterMap]

theorem workLoop_flag (beh : Nat → CbResult) :
    ∀ (pre : List Nat) (n : Nat) (rest done : List Nat) (fuel : Nat) (u : Updater),
      ringAt u done (pre ++ n :: rest) = true →
      (∀ m ∈ pre ++ n :: rest, (getNode u m).live = true) →
      (∀ m ∈ pre, flagsB beh u u.queue.state m = false) →
      flagsB beh u u.queue.state n = true →
      u.isWorking = false → pre.length + 1 ≤ fuel →
      ∃ S, doWorkLoop beh fuel u = (S, visitEvs u u.queue.state (pre ++ [n]), true) ∧
        S.queue.state = u.queue.state ∧
        S.states = u.states ∧
        S.isWorking = true ∧
        S.caughtErrors = u.caughtErrors ++ errsOf beh u u.queue.state pre ∧
        S.queue.cursorNode = some n ∧
        S.queue.lastNode = u.queue.lastNode ∧
        S.nodes = u.nodes ∧
        (rest ≠ [] → ringAt S (done ++ pre ++ [n]) rest = true)
  | [], n, rest, done, fuel, u, h, hlive, _, hflagn, hw, hfuel => by
      obtain ⟨f, rfl⟩ : ∃ f, fuel = f + 1 := ⟨fuel - 1, by omega⟩
      simp only [List.nil_append] at h hlive
      have hliven : (getNode u n).live = true := hlive n (by simp)
      obtain ⟨c, hcur, hnext, _, _⟩ := ringAt_cursor_next u done n rest h
      have hw2 : (advanceCursor (stepNode beh u n).1 n).isWorking = true := by
        rw [advanceCursor_isWorking, stepNode_isWorking beh u n hliven hw]
        exact hflagn
      have hl2 : (advanceCursor (stepNode beh u n).1 n).queue.lastNode = u.queue.lastNode := by
        rw [advanceCursor_lastNode, stepNode_queue]
      have hnodes2 : (advanceCursor (stepNode beh u n).1 n).nodes = u.nodes := by
        rw [advanceCursor_nodes, stepNode_nodes]
      refine ⟨advanceCursor (stepNode beh u n).1 n, ?_, ?_, ?_, hw2, ?_, ?_, hl2, ?_, ?_⟩
      · simp only [doWorkLoop, hcur, hnext]
        rw [if_neg (by rw [hliven]; simp)]
        split
        · simp [visitEvs, stepNode_ev beh u n hliven]
        · rename_i hcontra
          rw [hw2] at hcontra
          exact absurd rfl hcontra
      · rw [advanceCursor_state, stepNode_queue]
      · rw [advanceCursor_states, stepNode_states]
      · rw [advanceCursor_caughtErrors, stepNode_caughtErrors beh u n hliven,
          errsOf_flagged beh u u.queue.state n hflagn]
        simp [errsOf]
      · exact advanceCursor_cursor _ n
      · rw [advanceCursor_nodes, stepNode_nodes]
      · intro hrest
        refine ringAt_intro_last _ (done ++ [] ++ [n]) rest n
          (by simp [List.getLast?_concat]) ?_ (advanceCursor_cursor _ n)
        rw [show (done ++ [] ++ [n]) ++ rest = done ++ n :: rest by simp]
        rw [ringShape_congr u (advanceCursor (stepNode beh u n).1 n)
          (done ++ n :: rest) hnodes2 hl2]
        exact ringAt_shape u done (n :: rest) h
  | p0 :: ps, n, rest, done, fuel, u, h, hlive, hpre, hflagn, hw, hfuel => by
      obtain ⟨f, rfl⟩ : ∃ f, fuel = f + 1 := ⟨fuel - 1, by omega⟩
      have hform : (p0 :: ps) ++ n :: rest = p0 :: (ps ++ n :: rest) := by simp
      have h' : ringAt u done (p0 :: (ps ++ n :: rest)) = true := by rw [← hform]; exact h
      have hlivep : (getNode u p0).live = true := hlive p0 (by simp)
      have hflagp : flagsB beh u u.queue.state p0 = false := hpre p0 (by simp)
      obtain ⟨c, hcur, hnext, _, hlast_ne⟩ :=
        ringAt_cursor_next u done p0 (ps ++ n :: rest) h'
      have hw2 : (advanceCursor (stepNode beh u p0).1 p0).isWorking = false := by
        rw [advanceCursor_isWorking, stepNode_isWorking beh u p0 hlivep hw]
        exact hflagp
      have hnodes2 : (advanceCursor (stepNode beh u p0).1 p0).nodes = u.nodes := by
        rw [advanceCursor_nodes, stepNode_nodes]
      have hl2 : (advanceCursor (stepNode beh u p0).1 p0).queue.lastNode = u.queue.lastNode := by
        rw [advanceCursor_lastNode, stepNode_queue]
      have hqs2 : (advanceCursor (stepNode beh u p0).1 p0).queue.state = u.queue.state := by
        rw [advanceCursor_state, stepNode_queue]
      have hrat : ringAt (advanceCursor (stepNode beh u p0).1 p0)
          (done ++ [p0]) (ps ++ n :: rest) = true := by
        refine ringAt_intro_last _ (done ++ [p0]) (ps ++ n :: rest) p0
          (by rw [List.getLast?_concat]) ?_ (advanceCursor_cursor _ p0)
        rw [show (done ++ [p0]) ++ (ps ++ n :: rest) = done ++ p0 :: (ps ++ n :: rest) by simp]
        rw [ringShape_congr u (advanceCursor (stepNode beh u p0).1 p0)
          (done ++ p0 :: (ps ++ n :: rest)) hnodes2 hl2]
        exact ringAt_shape u done (p0 :: (ps ++ n :: rest)) h'
      obtain ⟨S, hSeq, hSst, hSss, hSw, hSce, hScur, hSl, hSn, hSring⟩ :=
        workLoop_flag beh ps n rest (done ++ [p0]) f (advanceCursor (stepNode beh u p0).1 p0)
          hrat
          (by intro z hz
              rw [getNode_congr u _ hnodes2]
              exact hlive z (by rw [hform]; simp [hz]))
          (by intro z hz
              rw [flagsB_congr beh u _ _ _ hnodes2, hqs2]
              exact hpre z (by simp [hz]))
          (by rw [flagsB_congr beh u _ _ _ hnodes2, hqs2]
              exact hflagn)
          hw2
          (by simp at hfuel ⊢
              omega)
      refine ⟨S, ?_, ?_, ?_, hSw, ?_, hScur, ?_, ?_, ?_⟩
      · simp only [doWorkLoop, hcur, hnext]
        rw [if_neg (by rw [hlivep]; simp)]
        split
        · rename_i hcontra
          rw [hw2] at hcontra
          exact Bool.noConfusion hcontra
        · split
          · rename_i hcontra
            rw [advanceCursor_cursor, hl2] at hcontra
            exact absurd hcontra.symm (hlast_ne (by simp))
          · rw [hSeq]
            rw [visitEvs_congr u _ _ _ hnodes2, hqs2]
            rw [stepNode_ev beh u p0 hlivep]
            rfl
      · rw [hSst, hqs2]
      · rw [hSss, advanceCursor_states, stepNode_states]
      · rw [hSce, errsOf_congr beh u _ _ _ hnodes2, hqs2,
          advanceCursor_caughtErrors, stepNode_caughtErrors beh u p0 hlivep,
          List.append_assoc]
        rw [show errsOf beh u u.queue.state [p0] ++ errsOf beh u u.queue.state ps =
          errsOf beh u u.queue.state ([p0] ++ ps) from (errsOf_append beh u _ [p0] _).symm]
        rfl
      · rw [hSl, hl2]
      · rw [hSn, advanceCursor_nodes, stepNode_nodes]
      · intro hrest
        have := hSring hrest
        rw [show (done ++ [p0]) ++ ps ++ [n] = done ++ (p0 :: ps) ++ [n] by simp] at this
        exact this

theorem run_empty (beh : Nat → CbResult) (wfuel : Nat) :
    ∀ (fuel : Nat) (u : Updater), run beh wfuel fuel u [] [] = (u, [])
  | 0, u => by simp [run]
  | fuel + 1, u => by simp [run]

theorem drainRev_len (l : List Nat) : (drainRev l).1.length ≤ l.length := by
  induction l with
  | nil => simp [drainRev]
  | cons e rest ih =>
      unfold drainRev
      split
      · simp
      · simpa using Nat.succ_le_succ ih

theorem run_rethrows (beh : Nat → CbResult) (wfuel : Nat) :
    ∀ (es : List Nat) (fuel : Nat) (u : Updater),
      u.isWorking = false → u.states = [] → es.length + 1 ≤ fuel →
      run beh wfuel fuel u [] (es.map Job.rethrow ++ [Job.startU]) = (u, es.map Ev.rethrown)
  | [], fuel, u, hw, hs, hfuel => by
      obtain ⟨f, rfl⟩ : ∃ f, fuel = f + 1 := ⟨fuel - 1, by omega⟩
      simp only [List.map_nil, List.nil_append, run, execJob, startUpdate, hw, hs]
      simp [run_empty]
  | e :: es, fuel, u, hw, hs, hfuel => by
      obtain ⟨f, rfl⟩ : ∃ f, fuel = f + 1 := ⟨fuel - 1, by omega⟩
      simp only [List.map_cons, List.cons_append, run, execJob]
      rw [show (es.map Job.rethrow ++ [Job.startU]) ++ [] =
        es.map Job.rethrow ++ [Job.startU] by simp]
      rw [run_rethrows beh wfuel es f u hw hs (by simp at hfuel ⊢; omega)]
      simp

theorem ringAt_lastNode_some (u : Updater) (done todo : List Nat)
    (h : ringAt u done todo = true) (hne : todo ≠ []) :
    ∃ t, u.queue.lastNode = some t := by
  have hs := ringAt_shape u done todo h
  match done, todo, hne with
  | [], n :: t2, _ =>
      obtain ⟨t, hlast, _⟩ := ringShape_nonempty u n t2 (by simpa using hs)
      exact ⟨t, hlast⟩
  | d :: ds, todo, _ =>
      obtain ⟨t, hlast, _⟩ := ringShape_nonempty u d (ds ++ todo) (by simpa using hs)
      exact ⟨t, hlast⟩

theorem getLast?_through (pre : List Nat) (n r0 : Nat) (rr : List Nat) :
    (pre ++ n :: r0 :: rr).getLast? = (r0 :: rr).getLast? := by
  rw [show pre ++ n :: r0 :: rr = (pre ++ [n]) ++ r0 :: rr by simp, getLast?_append_cons]

theorem completeUpdate_eq (u : Updater) (hw : u.isWorking = false) :
    completeUpdate u =
      ({ u with caughtErrors := (drainRev u.caughtErrors.reverse).2.reverse },
       (drainRev u.caughtErrors.reverse).1.map Job.rethrow ++ [Job.startU]) := by
  unfold completeUpdate
  simp [hw]

theorem run_resume (beh : Nat → CbResult) (wfuel : Nat) :
    ∀ (fuel : Nat) (todo done : List Nat) (u : Updater),
      ringAt u done todo = true →
      (∀ n ∈ todo, (getNode u n).live = true) →
      todo ≠ [] →
      (∀ tl, todo.getLast? = some tl → flagsB beh u u.queue.state tl = false) →
      u.isWorking = true → u.states = [] →
      todo.length ≤ wfuel →
      2 * todo.length + u.caughtErrors.length + 2 ≤ fuel →
      (run beh wfuel fuel u [Job.continueU] []).2 =
        visitEvs u u.queue.state todo ++
          (drainRev ((u.caughtErrors ++ errsOf beh u u.queue.state todo).reverse)).1.map
            Ev.rethrown
  | 0, todo, done, u, _, _, _, _, _, _, _, hfuel => by omega
  | fuel + 1, todo, done, u, h, hlive, hne, htail, hw, hs, hwfuel, hfuel => by
      obtain ⟨t, hlast⟩ := ringAt_lastNode_some u done todo h hne
      have hrat : ringAt { u with isWorking := false } done todo = true := by
        rw [ringAt_congr u { u with isWorking := false } done todo rfl rfl rfl]
        exact h
      rcases split_first (flagsB beh u u.queue.state) todo with hall | ⟨pre, n, rest, hsp, hpre, hn⟩
      · -- no further suspension: finish the lap, then drain errors and re-arm
        obtain ⟨F, hFeq, hFst, hFss, hFw, hFce, _, _, hFn⟩ :=
          workLoop_noflag beh todo done wfuel { u with isWorking := false }
            hrat (fun z hz => hlive z hz) (fun z hz => hall z hz) hne rfl hwfuel
        have hDW : doUpdateWork beh wfuel { u with isWorking := false } =
            ({ F with caughtErrors := (drainRev F.caughtErrors.reverse).2.reverse },
             visitEvs { u with isWorking := false }
               ({ u with isWorking := false } : Updater).queue.state todo, [],
             (drainRev F.caughtErrors.reverse).1.map Job.rethrow ++ [Job.startU]) := by
          unfold doUpdateWork
          rw [if_neg (by simp)]
          rw [if_neg (show ¬({ u with isWorking := false } : Updater).queue.lastNode = none by
            simp [hlast])]
          rw [hFeq]
          rw [if_neg (by simp)]
          simp only []
          rw [completeUpdate_eq F hFw]
        simp only [run, execJob]
        rw [hDW]
        simp only [List.nil_append, List.append_nil]
        have hFs2 : F.states = [] := by rw [hFss]; exact hs
        have hFce2 : F.caughtErrors = u.caughtErrors ++ errsOf beh u u.queue.state todo := by
          refine hFce.trans ?_
          show u.caughtErrors ++ errsOf beh { u with isWorking := false } u.queue.state todo =
            u.caughtErrors ++ errsOf beh u u.queue.state todo
          rw [errsOf_congr beh u { u with isWorking := false } u.queue.state todo rfl]
        have hrun := run_rethrows beh wfuel (drainRev F.caughtErrors.reverse).1 fuel
          { F with caughtErrors := (drainRev F.caughtErrors.reverse).2.reverse }
          (by show F.isWorking = false; exact hFw)
          (by show F.states = []; exact hFs2)
          (by have h1 : (drainRev F.caughtErrors.reverse).1.length ≤ F.caughtErrors.length := by
                have := drainRev_len F.caughtErrors.reverse
                simpa using this
              have h2 : F.caughtErrors.length ≤ u.caughtErrors.length + todo.length := by
                rw [hFce2]
                have h3 := errsOf_length_le beh u u.queue.state todo
                simp only [List.length_append]
                omega
              omega)
        rw [hrun]
        rw [visitEvs_congr u { u with isWorking := false } u.queue.state todo rfl]
        rw [hFce2]
      · -- a node re-enters the scheduler: suspend, then resume again
        have hrne : rest ≠ [] := by
          intro hre
          subst hre
          have hgl : todo.getLast? = some n := by
            rw [hsp, List.getLast?_concat]
          have := htail n hgl
          rw [hn] at this
          exact Bool.noConfusion this
        obtain ⟨r0, rr, hrr⟩ : ∃ r0 rr, rest = r0 :: rr := by
          match rest, hrne with
          | r0 :: rr, _ => exact ⟨r0, rr, rfl⟩
        have hsp' : ringAt { u with isWorking := false } done (pre ++ n :: rest) = true := by
          rw [← hsp]
          exact hrat
        obtain ⟨S, hSeq, hSst, hSss, hSw, hSce, hScur, hSl, hSn, hSring⟩ :=
          workLoop_flag beh pre n rest done wfuel { u with isWorking := false }
            hsp'
            (by intro z hz
                refine hlive z ?_
                rw [hsp]
                exact hz)
            (by intro z hz
                refine hpre z hz)
            hn
            rfl
            (by have : todo.length = pre.length + 1 + rest.length := by
                  rw [hsp]
                  simp only [List.length_append, List.length_cons]
                  omega
                omega)
        have hSce2 : S.caughtErrors = u.caughtErrors ++ errsOf beh u u.queue.state pre := by
          refine hSce.trans ?_
          show u.caughtErrors ++ errsOf beh { u with isWorking := false } u.queue.state pre =
            u.caughtErrors ++ errsOf beh u u.queue.state pre
          rw [errsOf_congr beh u { u with isWorking := false } u.queue.state pre rfl]
        have hDW : doUpdateWork beh wfuel { u with isWorking := false } =
            (S, visitEvs { u with isWorking := false }
               ({ u with isWorking := false } : Updater).queue.state (pre ++ [n]),
             [Job.continueU], []) := by
          unfold doUpdateWork
          rw [if_neg (by simp)]
          rw [if_neg (show ¬({ u with isWorking := false } : Updater).queue.lastNode = none by
            simp [hlast])]
          rw [hSeq]
          rw [if_pos (by simp)]
        simp only [run, execJob]
        rw [hDW]
        simp only [List.nil_append, List.append_nil]
        have hSq : S.queue.state = u.queue.state := hSst
        have hIH := run_resume beh wfuel fuel rest (done ++ pre ++ [n]) S
          (hSring hrne)
          (by intro z hz
              rw [getNode_congr u S (by rw [hSn])]
              refine hlive z ?_
              rw [hsp]
              simp [hz])
          hrne
          (by intro tl htl
              rw [flagsB_congr beh u S _ _ (by rw [hSn]), hSq]
              refine htail tl ?_
              rw [hrr] at htl
              rw [hsp, hrr, getLast?_through]
              exact htl)
          hSw
          (by rw [hSss]; exact hs)
          (by have : todo.length = pre.length + 1 + rest.length := by
                rw [hsp]
                simp only [List.length_append, List.length_cons]
                omega
              omega)
          (by have hlen : todo.length = pre.length + 1 + rest.length := by
                rw [hsp]
                simp only [List.length_append, List.length_cons]
                omega
              have hcel : S.caughtErrors.length ≤ u.caughtErrors.length + pre.length := by
                rw [hSce2]
                have h9 := errsOf_length_le beh u u.queue.state pre
                simp only [List.length_append]
                omega
              omega)
        rw [hSq] at hIH
        rw [hIH]
        rw [visitEvs_congr u S u.queue.state rest (by rw [hSn])]
        rw [errsOf_congr beh u S u.queue.state rest (by rw [hSn])]
        rw [hSce2]
        rw [visitEvs_congr u { u with isWorking := false } u.queue.state (pre ++ [n]) rfl]
        have hceS : (u.caughtErrors ++ errsOf beh u u.queue.state pre) ++
            errsOf beh u u.queue.state rest =
            u.caughtErrors ++ errsOf beh u u.queue.state todo := by
          rw [hsp]
          rw [show pre ++ n :: rest = pre ++ ([n] ++ rest) from by simp]
          rw [errsOf_append beh u u.queue.state pre ([n] ++ rest)]
          rw [errsOf_append beh u u.queue.state [n] rest]
          rw [errsOf_flagged beh u u.queue.state n hn]
          simp
        rw [hceS]
        rw [show visitEvs u u.queue.state (pre ++ [n]) ++
            (visitEvs u u.queue.state rest ++
              (drainRev ((u.caughtErrors ++ errsOf beh u u.queue.state todo).reverse)).1.map
                Ev.rethrown) =
            (visitEvs u u.queue.state (pre ++ [n]) ++ visitEvs u u.queue.state rest) ++
              (drainRev ((u.caughtErrors ++ errsOf beh u u.queue.state todo).reverse)).1.map
                Ev.rethrown from by rw [List.append_assoc]]
        rw [show visitEvs u u.queue.state (pre ++ [n]) ++ visitEvs u u.queue.state rest =
            visitEvs u u.queue.state ((pre ++ [n]) ++ rest) from
          (visitEvs_append u u.queue.state (pre ++ [n]) rest).symm]
        rw [show (pre ++ [n]) ++ rest = pre ++ n :: rest from by simp]
        rw [← hsp]

theorem run_pass (beh : Nat → CbResult) (wfuel : Nat)
    (fuel : Nat) (l : List Nat) (u : Updater) (s : Nat)
    (h : ringAt u [] l = true) (hne : l ≠ [])
    (hlive : ∀ n ∈ l, (getNode u n).live = true)
    (htail : ∀ tl, l.getLast? = some tl → flagsB beh u (some s) tl = false)
    (hw : u.isWorking = false) (hs : u.states = [s]) (hce : u.caughtErrors = [])
    (hwfuel : l.length ≤ wfuel)
    (hfuel : 2 * l.length + 3 ≤ fuel) :
    (run beh wfuel fuel u [] [Job.startU]).2 =
      Ev.passStarted (some s) :: (visitEvs u (some s) l ++
        (drainRev ((errsOf beh u (some s) l).reverse)).1.map Ev.rethrown) := by
  obtain ⟨f, rfl⟩ : ∃ f, fuel = f + 1 := ⟨fuel - 1, by omega⟩
  obtain ⟨t, hlast⟩ := ringAt_lastNode_some u [] l h hne
  obtain ⟨hshp, hcl⟩ := ringAt_elim_nil u l h
  have hu1n : ({ u with queue := { u.queue with state := some s }, states := [] } : Updater).nodes
      = u.nodes := rfl
  have hu1l : ({ u with queue := { u.queue with state := some s }, states := [] } : Updater).queue.lastNode
      = u.queue.lastNode := rfl
  have hu1c : ({ u with queue := { u.queue with state := some s }, states := [] } : Updater).queue.cursorNode
      = u.queue.cursorNode := rfl
  have hrat : ringAt { u with queue := { u.queue with state := some s }, states := [] } [] l = true := by
    rw [ringAt_congr u { u with queue := { u.queue with state := some s }, states := [] } [] l
      hu1n hu1l hu1c]
    exact h
  have hSU : startUpdate beh wfuel u =
      Except.ok
        ((doUpdateWork beh wfuel { u with queue := { u.queue with state := some s }, states := [] }).1,
         Ev.passStarted (some s) ::
           (doUpdateWork beh wfuel { u with queue := { u.queue with state := some s }, states := [] }).2.1,
         (doUpdateWork beh wfuel { u with queue := { u.queue with state := some s }, states := [] }).2.2.1,
         (doUpdateWork beh wfuel { u with queue := { u.queue with state := some s }, states := [] }).2.2.2) := by
    unfold startUpdate
    rw [if_neg (by rw [hw]; simp)]
    rw [if_neg (by rw [hs]; simp)]
    rw [if_neg (show ¬({ u with queue := { u.queue with state := u.states.getLast? }, states := [] } : Updater).queue.lastNode = none by simp [hlast])]
    rw [if_neg (show ¬¬({ u with queue := { u.queue with state := u.states.getLast? }, states := [] } : Updater).queue.cursorNode = ({ u with queue := { u.queue with state := u.states.getLast? }, states := [] } : Updater).queue.lastNode by
      simp only [not_not]
      show u.queue.cursorNode = u.queue.lastNode
      exact hcl)]
    rw [hs]
    rfl
  simp only [run, execJob]
  rw [hSU]
  simp only [List.nil_append, List.append_nil]
  rcases split_first (flagsB beh u (some s)) l with hall | ⟨pre, n, rest, hsp, hpre, hn⟩
  · -- no suspension in the pass
    obtain ⟨F, hFeq, hFst, hFss, hFw, hFce, _, _, hFn⟩ :=
      workLoop_noflag beh l []  wfuel { u with queue := { u.queue with state := some s }, states := [] }
        hrat
        (by intro z hz
            exact hlive z hz)
        (by intro z hz
            show flagsB beh _ (some s) z = false
            rw [flagsB_congr beh u _ (some s) z hu1n]
            exact hall z hz)
        hne hw hwfuel
    have hFce2 : F.caughtErrors = errsOf beh u (some s) l := by
      refine hFce.trans ?_
      show u.caughtErrors ++
          errsOf beh { u with queue := { u.queue with state := some s }, states := [] } (some s) l =
        errsOf beh u (some s) l
      rw [errsOf_congr beh u { u with queue := { u.queue with state := some s }, states := [] }
        (some s) l hu1n, hce]
      simp
    have hDW : doUpdateWork beh wfuel { u with queue := { u.queue with state := some s }, states := [] } =
        ({ F with caughtErrors := (drainRev F.caughtErrors.reverse).2.reverse },
         visitEvs { u with queue := { u.queue with state := some s }, states := [] }
           ({ u with queue := { u.queue with state := some s }, states := [] } : Updater).queue.state l,
         [],
         (drainRev F.caughtErrors.reverse).1.map Job.rethrow ++ [Job.startU]) := by
      unfold doUpdateWork
      rw [if_neg (by simp [hw])]
      rw [if_neg (show ¬({ u with queue := { u.queue with state := some s }, states := [] } : Updater).queue.lastNode = none by simp [hlast])]
      rw [hFeq]
      rw [if_neg (by simp)]
      simp only []
      rw [completeUpdate_eq F hFw]
    rw [hDW]
    simp only [List.nil_append, List.append_nil]
    have hrun := run_rethrows beh wfuel (drainRev F.caughtErrors.reverse).1 f
      { F with caughtErrors := (drainRev F.caughtErrors.reverse).2.reverse }
      (by show F.isWorking = false; exact hFw)
      (by show F.states = []
          rw [hFss])
      (by have h1 : (drainRev F.caughtErrors.reverse).1.length ≤ F.caughtErrors.length := by
            have := drainRev_len F.caughtErrors.reverse
            simpa using this
          have h2 : F.caughtErrors.length ≤ l.length := by
            rw [hFce2]
            exact errsOf_length_le beh u (some s) l
          omega)
    rw [hrun]
    rw [visitEvs_congr u { u with queue := { u.queue with state := some s }, states := [] }
      (some s) l hu1n]
    rw [hFce2]
    simp
  · -- the pass suspends at n, then resumes via the microtask continuation
    have hrne : rest ≠ [] := by
      intro hre
      subst hre
      have hgl : l.getLast? = some n := by
        rw [hsp, List.getLast?_concat]
      have := htail n hgl
      rw [hn] at this
      exact Bool.noConfusion this
    obtain ⟨r0, rr, hrr⟩ : ∃ r0 rr, rest = r0 :: rr := by
      match rest, hrne with
      | r0 :: rr, _ => exact ⟨r0, rr, rfl⟩
    have hsp' : ringAt { u with queue := { u.queue with state := some s }, states := [] } []
        (pre ++ n :: rest) = true := by
      rw [← hsp]
      exact hrat
    obtain ⟨S, hSeq, hSst, hSss, hSw, hSce, hScur, hSl, hSn, hSring⟩ :=
      workLoop_flag beh pre n rest [] wfuel
        { u with queue := { u.queue with state := some s }, states := [] }
        hsp'
        (by intro z hz
            refine hlive z ?_
            rw [hsp]
            exact hz)
        (by intro z hz
            show flagsB beh _ (some s) z = false
            rw [flagsB_congr beh u _ (some s) z hu1n]
            exact hpre z hz)
        (by show flagsB beh _ (some s) n = true
            rw [flagsB_congr beh u _ (some s) n hu1n]
            exact hn)
        hw
        (by have : l.length = pre.length + 1 + rest.length := by
              rw [hsp]
              simp only [List.length_append, List.length_cons]
              omega
            omega)
    have hSq : S.queue.state = some s := hSst
    have hSce2 : S.caughtErrors = errsOf beh u (some s) pre := by
      refine hSce.trans ?_
      show u.caughtErrors ++
          errsOf beh { u with queue := { u.queue with state := some s }, states := [] } (some s) pre =
        errsOf beh u (some s) pre
      rw [errsOf_congr beh u { u with queue := { u.queue with state := some s }, states := [] }
        (some s) pre hu1n, hce]
      simp
    have hDW : doUpdateWork beh wfuel { u with queue := { u.queue with state := some s }, states := [] } =
        (S, visitEvs { u with queue := { u.queue with state := some s }, states := [] }
           ({ u with queue := { u.queue with state := some s }, states := [] } : Updater).queue.state
           (pre ++ [n]),
         [Job.continueU], []) := by
      unfold doUpdateWork
      rw [if_neg (by simp [hw])]
      rw [if_neg (show ¬({ u with queue := { u.queue with state := some s }, states := [] } : Updater).queue.lastNode = none by simp [hlast])]
      rw [hSeq]
      rw [if_pos (by simp)]
    rw [hDW]
    simp only [List.nil_append, List.append_nil]
    have hIH := run_resume beh wfuel f rest ([] ++ pre ++ [n]) S
      (hSring hrne)
      (by intro z hz
          rw [getNode_congr u S (by rw [hSn])]
          refine hlive z ?_
          rw [hsp]
          simp [hz])
      hrne
      (by intro tl htl
          rw [flagsB_congr beh u S _ _ (by rw [hSn]), hSq]
          refine htail tl ?_
          rw [hrr] at htl
          rw [hsp, hrr, getLast?_through]
          exact htl)
      hSw
      (by rw [hSss])
      (by have : l.length = pre.length + 1 + rest.length := by
            rw [hsp]
            simp only [List.length_append, List.length_cons]
            omega
          omega)
      (by have hlen : l.length = pre.length + 1 + rest.length := by
            rw [hsp]
            simp only [List.length_append, List.length_cons]
            omega
          have hcel : S.caughtErrors.length ≤ pre.length := by
            rw [hSce2]
            exact errsOf_length_le beh u (some s) pre
          omega)
    rw [hSq] at hIH
    rw [hIH]
    rw [visitEvs_congr u S (some s) rest (by rw [hSn])]
    rw [errsOf_congr beh u S (some s) rest (by rw [hSn])]
    rw [hSce2]
    rw [visitEvs_congr u { u with queue := { u.queue with state := some s }, states := [] }
      (some s) (pre ++ [n]) hu1n]
    have hceS : errsOf beh u (some s) pre ++ errsOf beh u (some s) rest =
        errsOf beh u (some s) l := by
      rw [hsp]
      rw [show pre ++ n :: rest = pre ++ ([n] ++ rest) from by simp]
      rw [errsOf_append beh u (some s) pre ([n] ++ rest)]
      rw [errsOf_append beh u (some s) [n] rest]
      rw [errsOf_flagged beh u (some s) n hn]
      simp
    rw [hceS]
    have hv : visitEvs u (some s) (pre ++ [n]) ++ visitEvs u (some s) rest =
        visitEvs u (some s) l := by
      rw [← visitEvs_append u (some s) (pre ++ [n]) rest]
      rw [show (pre ++ [n]) ++ rest = l from by rw [hsp]; simp]
    rw [← hv]
    simp [List.append_assoc]

theorem drainRev_all_truthy :
    ∀ (l : List Nat), (∀ e ∈ l, e ≠ 0) → drainRev l = (l, [])
  | [], _ => rfl
  | e :: rest, h => by
      unfold drainRev
      rw [if_neg (h e (by simp))]
      rw [drainRev_all_truthy rest (fun x hx => h x (by simp [hx]))]

theorem visitIdx_visitEv (u : Updater) (q : Option Nat) (n : Nat) :
    visitIdx (visitEv u q n) = some n := by
  unfold visitEv
  split
  · rfl
  · split
    · rfl
    · rfl

theorem filterMap_visitIdx_visitEvs (u : Updater) (q : Option Nat) :
    ∀ (l : List Nat), (visitEvs u q l).filterMap visitIdx = l
  | [] => rfl
  | n :: rest => by
      unfold visitEvs
      simp only [List.map_cons, List.filterMap_cons, visitIdx_visitEv]
      rw [show (List.map (visitEv u q) rest).filterMap visitIdx = rest from
        filterMap_visitIdx_visitEvs u q rest]

theorem filterMap_visitIdx_rethrown (es : List Nat) :
    (es.map Ev.rethrown).filterMap visitIdx = [] := by
  induction es with
  | nil => rfl
  | cons e rest ih => simp only [List.map_cons, List.filterMap_cons, visitIdx, ih]

theorem sameNodesFields_of_nodes_eq {u v : Updater} (h : v.nodes = u.nodes) :
    sameNodesFields u v := by
  intro i
  rw [getNode_congr u v h]
  exact ⟨rfl, rfl⟩

theorem doWorkLoop_nodesFields (beh : Nat → CbResult) :
    ∀ (fuel : Nat) (u : Updater), sameNodesFields u (doWorkLoop beh fuel u).1
  | 0, u => sameNodesFields_refl u
  | fuel + 1, u => by
      simp only [doWorkLoop]
      split
      · exact sameNodesFields_refl u
      · split
        · exact sameNodesFields_refl u
        · split
          · split
            · exact removeCurrentNode_nodesFields u
            · exact sameNodesFields_trans (removeCurrentNode_nodesFields u)
                (doWorkLoop_nodesFields beh fuel (removeCurrentNode u))
          · have hstep : ∀ n, sameNodesFields u (advanceCursor (stepNode beh u n).1 n) := by
              intro n
              refine sameNodesFields_of_nodes_eq ?_
              rw [advanceCursor_nodes, stepNode_nodes]
            split
            · exact hstep _
            · split
              · exact hstep _
              · exact sameNodesFields_trans (hstep _)
                  (doWorkLoop_nodesFields beh fuel _)

theorem doUpdateWork_nodesFields (beh : Nat → CbResult) (wfuel : Nat) (u : Updater) :
    sameNodesFields u (doUpdateWork beh wfuel u).1 := by
  by_cases hw : u.isWorking = true
  · simp only [doUpdateWork, if_pos hw]
    exact sameNodesFields_refl u
  · by_cases hl : u.queue.lastNode = none
    · simp only [doUpdateWork, if_neg hw, if_pos hl]
      exact sameNodesFields_of_nodes_eq (completeUpdate_nodes u)
    · by_cases hf : (doWorkLoop beh wfuel u).2.2 = true
      · simp only [doUpdateWork, if_neg hw, if_neg hl, if_pos hf]
        exact doWorkLoop_nodesFields beh wfuel u
      · simp only [doUpdateWork, if_neg hw, if_neg hl, if_neg hf]
        exact sameNodesFields_trans (doWorkLoop_nodesFields beh wfuel u)
          (sameNodesFields_of_nodes_eq (completeUpdate_nodes _))

theorem doUpdateWork_frames (beh : Nat → CbResult) (wfuel : Nat) (u : Updater) :
    (doUpdateWork beh wfuel u).1.queue.state = u.queue.state ∧
    (doUpdateWork beh wfuel u).1.states = u.states := by
  by_cases hw : u.isWorking = true
  · simp only [doUpdateWork, if_pos hw]
    exact ⟨trivial, trivial⟩
  · by_cases hl : u.queue.lastNode = none
    · simp only [doUpdateWork, if_neg hw, if_pos hl]
      exact ⟨rfl, rfl⟩
    · have hfr := doWorkLoop_frames beh wfuel u
      by_cases hf : (doWorkLoop beh wfuel u).2.2 = true
      · simp only [doUpdateWork, if_neg hw, if_neg hl, if_pos hf]
        exact hfr
      · simp only [doUpdateWork, if_neg hw, if_neg hl, if_neg hf]
        rw [completeUpdate_queue, completeUpdate_states]
        exact hfr

theorem appendNodeToQueue_state (u : Updater) (i j : Nat) :
    (getNode (appendNodeToQueue u i) j).state = (getNode u j).state := by
  rcases hq : u.queue.lastNode with _ | t
  · simp only [appendNodeToQueue, hq]
    exact getNode_setNext_state u i (some i) j
  · simp only [appendNodeToQueue, hq]
    by_cases hc : u.queue.cursorNode = some t
    · rw [if_pos hc]
      show (getNode (setNext (setNext u i (getNode u t).next) t (some i)) j).state =
        (getNode u j).state
      rw [getNode_setNext_state, getNode_setNext_state]
    · rw [if_neg hc]
      show (getNode (setNext (setNext u i (getNode u t).next) t (some i)) j).state =
        (getNode u j).state
      rw [getNode_setNext_state, getNode_setNext_state]

theorem create_stamp (u : Updater) (live : Bool) :
    (getNode (create u live).1 (create u live).2).state = u.queue.state := by
  show (getNode
    (appendNodeToQueue
      { u with nodes :=
          u.nodes ++ [({ live := live, state := u.queue.state, next := none } : Node)] }
      u.nodes.length)
    u.nodes.length).state = u.queue.state
  rw [appendNodeToQueue_state]
  show ((u.nodes ++ [({ live := live, state := u.queue.state, next := none } : Node)]).getD
    u.nodes.length { live := false, state := none, next := none }).state = u.queue.state
  rw [List.getD_eq_getElem?_getD, List.getElem?_concat_length]
  rfl

/-- C1: a completed pass never writes any node's observed-state stamp:
`doUpdateWork` leaves every node's `live` and `state` fields exactly as
they were (first conjunct, for every behaviour, fuel and state), and
concretely, after `newState 5` runs a full pass over a freshly created
live node — the pass completes (the cursor is back on the tail) and the
`invoked 0 (some 5)` event shows the callback ran — the node's stamp is
still `none` while the queue's snapshot is `some 5`.  The spec's "on
success, stamp the node's last-seen state to the current snapshot" has no
counterpart in the code (`node.state` is only ever assigned in `create`),
so after a pass a live node's stamp does not equal the pass snapshot. -/
theorem c1_no_stamping :
    (∀ (beh : Nat → CbResult) (wfuel : Nat) (u : Updater),
      sameNodesFields u (doUpdateWork beh wfuel u).1) ∧
    (stepOk (newState behOk 4 (mkRing 1) 5)).2.1 =
      [Ev.passStarted (some 5), Ev.invoked 0 (some 5)] ∧
    (stepOk (newState behOk 4 (mkRing 1) 5)).1.queue.cursorNode =
      (stepOk (newState behOk 4 (mkRing 1) 5)).1.queue.lastNode ∧
    (getNode (stepOk (newState behOk 4 (mkRing 1) 5)).1 0).live = true ∧
    (stepOk (newState behOk 4 (mkRing 1) 5)).1.queue.state = some 5 ∧
    (getNode (stepOk (newState behOk 4 (mkRing 1) 5)).1 0).state = none :=
  ⟨doUpdateWork_nodesFields, by decide⟩

/-- C2 (amended): when a node's callback sets the working flag mid-pass,
the loop emits exactly the visits up to and including that node,
schedules the continuation as the sole microtask (and no task), and
stops; provided the suspension does not recur at the tail of the
remainder, the resumed continuation visits exactly the remaining nodes of
the pass, each once, in ring order — no remaining node is skipped or
double-visited.  The original claim's unconditional "no node is visited
twice in the same pass" fails when the suspending node is the tail (see
the counterexample): the resumed loop re-enters from the head and laps
the ring again. -/
theorem c2_suspend_resume_exactly_once (beh : Nat → CbResult)
    (wfuel fuel : Nat) (u : Updater) (done pre rest : List Nat) (n : Nat)
    (h : ringAt u done (pre ++ n :: rest) = true)
    (hlive : ∀ m ∈ pre ++ n :: rest, (getNode u m).live = true)
    (hpre : ∀ m ∈ pre, flagsB beh u u.queue.state m = false)
    (hn : flagsB beh u u.queue.state n = true)
    (hw : u.isWorking = false) (hs : u.states = [])
    (hrest : rest ≠ [])
    (htl : ∀ tl, rest.getLast? = some tl → flagsB beh u u.queue.state tl = false)
    (hwfuel : pre.length + 1 + rest.length ≤ wfuel)
    (hfuel : 2 * rest.length + u.caughtErrors.length + pre.length + 2 ≤ fuel) :
    (doUpdateWork beh wfuel u).2.1 = visitEvs u u.queue.state (pre ++ [n]) ∧
    (doUpdateWork beh wfuel u).2.2.1 = [Job.continueU] ∧
    (doUpdateWork beh wfuel u).2.2.2 = [] ∧
    (run beh wfuel fuel (doUpdateWork beh wfuel u).1 [Job.continueU] []).2.filterMap
      visitIdx = rest := by
  obtain ⟨t, hlast⟩ := ringAt_lastNode_some u done (pre ++ n :: rest) h (by simp)
  obtain ⟨S, hSeq, hSst, hSss, hSw, hSce, hScur, hSl, hSn, hSring⟩ :=
    workLoop_flag beh pre n rest done wfuel u h hlive hpre hn hw (by omega)
  have hDW : doUpdateWork beh wfuel u =
      (S, visitEvs u u.queue.state (pre ++ [n]), [Job.continueU], []) := by
    unfold doUpdateWork
    rw [if_neg (by simp [hw])]
    rw [if_neg (by simp [hlast])]
    rw [hSeq]
    rw [if_pos (by simp)]
  rw [hDW]
  refine ⟨rfl, rfl, rfl, ?_⟩
  have hIH := run_resume beh wfuel fuel rest (done ++ pre ++ [n]) S
    (hSring hrest)
    (by intro z hz
        rw [getNode_congr u S hSn]
        exact hlive z (by simp [hz]))
    hrest
    (by intro tl htl2
        rw [flagsB_congr beh u S _ _ hSn, hSst]
        exact htl tl htl2)
    hSw
    (by rw [hSss, hs])
    (by omega)
    (by have hle := errsOf_length_le beh u u.queue.state pre
        have hce2 : S.caughtErrors.length ≤
            u.caughtErrors.length + pre.length := by
          rw [hSce]
          simp only [List.length_append]
          omega
        omega)
  rw [hIH]
  rw [List.filterMap_append, filterMap_visitIdx_visitEvs, filterMap_visitIdx_rethrown]
  simp

/-- C2 counterexample: with two live nodes and the tail node `1`
re-entering via `updating`, the pass for snapshot `5` suspends right
after the tail; the resumed continuation starts again at
`cursorNode.nextNode`, which has wrapped around to the head, so node `0`
is invoked again although only one pass was ever started — the trace has
exactly one `passStarted` event but at least two invocations of node
`0`. -/
theorem c2_tail_suspension_double_visit :
    ((stepOk (newState (behUpd 1) 8 (mkRing 2) 5)).2.1 ++
      (run (behUpd 1) 8 2 (stepOk (newState (behUpd 1) 8 (mkRing 2) 5)).1
        (stepOk (newState (behUpd 1) 8 (mkRing 2) 5)).2.2.1
        (stepOk (newState (behUpd 1) 8 (mkRing 2) 5)).2.2.2).2).count
      (Ev.passStarted (some 5)) = 1 ∧
    2 ≤ ((stepOk (newState (behUpd 1) 8 (mkRing 2) 5)).2.1 ++
      (run (behUpd 1) 8 2 (stepOk (newState (behUpd 1) 8 (mkRing 2) 5)).1
        (stepOk (newState (behUpd 1) 8 (mkRing 2) 5)).2.2.1
        (stepOk (newState (behUpd 1) 8 (mkRing 2) 5)).2.2.2).2).count
      (Ev.invoked 0 (some 5)) := by
  decide

/-- C2 witness: the suspension/resumption theorem instantiated on a
three-node ring under snapshot `5` where node `1` (not the tail)
suspends: the pass stops with the continuation microtask scheduled, and
the resumption visits exactly the remaining node `2` once. -/
theorem c2_suspend_resume_exactly_once_witness :
    (doUpdateWork (behUpd 1) 3 (withSnap (mkRing 3) 5)).2.2.1 = [Job.continueU] ∧
    (run (behUpd 1) 3 5 (doUpdateWork (behUpd 1) 3 (withSnap (mkRing 3) 5)).1
      [Job.continueU] []).2.filterMap visitIdx = [2] := by
  have h := c2_suspend_resume_exactly_once (behUpd 1) 3 5 (withSnap (mkRing 3) 5)
    [] [0] [2] 1
    (by decide) (by decide) (by decide) (by decide) (by decide) (by decide)
    (by decide)
    (by intro tl htl
        simp at htl
        subst htl
        decide)
    (by decide) (by decide)
  exact ⟨h.2.1, h.2.2.2⟩

/-- C3: with a pass suspended (working flag set, its continuation pending
as a microtask), two snapshots `s0` then `s1` submitted in immediate
succession are both buffered without starting work (the suspended
`startUpdate` returns early); when the scheduler drains, the old pass
finishes and the deferred `startUpdate` task pops only the most recent
snapshot `s1` and discards `s0`, running exactly one new pass against
`s1`: the full trace contains exactly one `passStarted` event, every
`passStarted` carries `some s1`, and no callback is ever invoked with
`s0`. -/
theorem c3_coalesce_to_latest (s0 s1 : Nat)
    (h0 : s0 ≠ 5) (h1 : s1 ≠ 5) (h01 : s0 ≠ s1) :
    newState behOk 4 c3suspended s0 =
      Except.ok ({ c3suspended with states := [s0] }, [], [], []) ∧
    newState behOk 4 { c3suspended with states := [s0] } s1 =
      Except.ok ({ c3suspended with states := [s0, s1] }, [], [], []) ∧
    (run behOk 4 9 { c3suspended with states := [s0, s1] } [Job.continueU] []).2 =
      [Ev.invoked 1 (some 5), Ev.passStarted (some s1),
       Ev.invoked 0 (some s1), Ev.invoked 1 (some s1)] ∧
    (run behOk 4 9 { c3suspended with states := [s0, s1] } [Job.continueU] []).2.count
      (Ev.passStarted (some s1)) = 1 ∧
    (∀ q, Ev.passStarted q ∈
      (run behOk 4 9 { c3suspended with states := [s0, s1] } [Job.continueU] []).2 →
      q = some s1) ∧
    (∀ m, Ev.invoked m (some s0) ∉
      (run behOk 4 9 { c3suspended with states := [s0, s1] } [Job.continueU] []).2) := by
  have hA : newState behOk 4 c3suspended s0 =
      Except.ok ({ c3suspended with states := [s0] }, [], [], []) := by
    unfold newState
    rw [if_pos (show c3suspended.queue.state ≠ some s0 from by
      show (some 5 : Option Nat) ≠ some s0
      intro hc
      exact h0 (Option.some.inj hc).symm)]
    rfl
  have hB : newState behOk 4 { c3suspended with states := [s0] } s1 =
      Except.ok ({ c3suspended with states := [s0, s1] }, [], [], []) := by
    unfold newState
    rw [if_pos (show ({ c3suspended with states := [s0] } : Updater).queue.state ≠ some s1 from by
      show (some 5 : Option Nat) ≠ some s1
      intro hc
      exact h1 (Option.some.inj hc).symm)]
    rfl
  have hRun : (run behOk 4 9 { c3suspended with states := [s0, s1] } [Job.continueU] []).2 =
      [Ev.invoked 1 (some 5), Ev.passStarted (some s1),
       Ev.invoked 0 (some s1), Ev.invoked 1 (some s1)] := rfl
  refine ⟨hA, hB, hRun, ?_, ?_, ?_⟩
  · rw [hRun]
    simp [List.count_cons]
  · intro q hq
    rw [hRun] at hq
    simp at hq
    exact hq
  · intro m hm
    rw [hRun] at hm
    simp [h0, h01] at hm

/-- C3 witness: the coalescing theorem at the concrete snapshots 0 and 1:
submitting 0 then 1 onto the suspended updater yields a trace with
exactly one started pass, against `some 1`. -/
theorem c3_coalesce_to_latest_witness :
    (run behOk 4 9 { c3suspended with states := [0, 1] } [Job.continueU] []).2.count
      (Ev.passStarted (some 1)) = 1 :=
  (c3_coalesce_to_latest 0 1 (by decide) (by decide) (by decide)).2.2.2.1

/-- C4 (amended): in a pass whose thrown error values are all truthy
(non-zero), a throwing callback blocks nothing — the trace still contains
the visit of every ring node, in order (the `filterMap visitIdx`
conjunct) — and after the pass completes each buffered error is rethrown
as its own deferred task exactly once, in LIFO drain order.  The original
claim fails for falsy thrown values: the drain loop `while ((e =
caughtErrors.pop()))` stops on a falsy pop, swallowing it and stranding
every earlier error (see the counterexample). -/
theorem c4_throws_isolated_rethrown_once (beh : Nat → CbResult) (wfuel fuel : Nat)
    (l : List Nat) (u : Updater) (s : Nat)
    (h : ringAt u [] l = true) (hne : l ≠ [])
    (hlive : ∀ n ∈ l, (getNode u n).live = true)
    (htail : ∀ tl, l.getLast? = some tl → flagsB beh u (some s) tl = false)
    (hw : u.isWorking = false) (hs : u.states = [s]) (hce : u.caughtErrors = [])
    (hwfuel : l.length ≤ wfuel) (hfuel : 2 * l.length + 3 ≤ fuel)
    (htruthy : ∀ e ∈ errsOf beh u (some s) l, e ≠ 0) :
    (run beh wfuel fuel u [] [Job.startU]).2 =
      Ev.passStarted (some s) ::
        (visitEvs u (some s) l ++
          ((errsOf beh u (some s) l).reverse).map Ev.rethrown) ∧
    (run beh wfuel fuel u [] [Job.startU]).2.filterMap visitIdx = l := by
  have hmain := run_pass beh wfuel fuel l u s h hne hlive htail hw hs hce hwfuel hfuel
  have hdr : drainRev ((errsOf beh u (some s) l).reverse) =
      ((errsOf beh u (some s) l).reverse, []) :=
    drainRev_all_truthy _ (by
      intro e he
      exact htruthy e (by simpa using he))
  rw [hdr] at hmain
  refine ⟨hmain, ?_⟩
  rw [hmain]
  simp only [List.filterMap_cons, visitIdx]
  rw [List.filterMap_append, filterMap_visitIdx_visitEvs, filterMap_visitIdx_rethrown]
  simp

/-- C4 counterexample: node `0` throws `1` and node `1` throws `0` (a
falsy value); both nodes are still invoked, but the drain loop stops on
the falsy pop, so no rethrow task is ever scheduled — the trace has no
`rethrown` event — and the error `1` is stranded in the buffer: both
failures end up silently swallowed. -/
theorem c4_falsy_error_swallowed :
    (run (behThrow fun n => if n = 0 then 1 else 0) 2 7
        { mkRing 2 with states := [5] } [] [Job.startU]).2 =
      [Ev.passStarted (some 5), Ev.invoked 0 (some 5), Ev.invoked 1 (some 5)] ∧
    (run (behThrow fun n => if n = 0 then 1 else 0) 2 7
        { mkRing 2 with states := [5] } [] [Job.startU]).1.caughtErrors = [1] := by
  decide

/-- C4 witness: the isolation theorem on a two-node ring whose callbacks
throw `3` and `4`: both nodes are invoked and both errors are rethrown
exactly once, newest first. -/
theorem c4_throws_isolated_rethrown_once_witness :
    (run (behThrow fun n => n + 3) 2 7 { mkRing 2 with states := [5] }
        [] [Job.startU]).2 =
      [Ev.passStarted (some 5), Ev.invoked 0 (some 5), Ev.invoked 1 (some 5),
       Ev.rethrown 4, Ev.rethrown 3] := by
  have h := c4_throws_isolated_rethrown_once (behThrow fun n => n + 3) 2 7 [0, 1]
    { mkRing 2 with states := [5] } 5
    (by decide) (by decide) (by decide)
    (by intro tl htl
        simp at htl
        subst htl
        decide)
    (by decide) (by decide) (by decide) (by decide) (by decide)
    (by decide)
  rw [h.1]
  rfl

/-- C5: `startUpdate` is a no-op when already working or when no snapshot
is pending; otherwise it installs the most recent pending snapshot (the
last pushed) as the queue's current state and empties the pending buffer
(discarding all older snapshots); and it throws the fatal invariant error
exactly when invoked while not working, with work pending, a non-empty
ring, and the cursor away from the tail. -/
theorem c5_startUpdate_spec (beh : Nat → CbResult) (wfuel : Nat) (u : Updater) :
    (u.isWorking = true → startUpdate beh wfuel u = Except.ok (u, [], [], [])) ∧
    (u.states = [] → startUpdate beh wfuel u = Except.ok (u, [], [], [])) ∧
    (∀ r, startUpdate beh wfuel u = Except.ok r →
      u.isWorking = false → u.states ≠ [] →
      r.1.queue.state = u.states.getLast? ∧ r.1.states = []) ∧
    (startUpdate beh wfuel u = Except.error () ↔
      (u.isWorking = false ∧ u.states ≠ [] ∧ u.queue.lastNode ≠ none ∧
        u.queue.cursorNode ≠ u.queue.lastNode)) := by
  by_cases hw : u.isWorking = true
  · have he : startUpdate beh wfuel u = Except.ok (u, [], [], []) := by
      unfold startUpdate
      rw [if_pos hw]
    refine ⟨fun _ => he, fun _ => he, ?_, ?_⟩
    · intro r _ hw2 _
      rw [hw2] at hw
      exact absurd hw (by simp)
    · constructor
      · intro hc
        rw [he] at hc
        exact absurd hc (by simp)
      · rintro ⟨hw2, _, _, _⟩
        rw [hw2] at hw
        exact absurd hw (by simp)
  · have hwf : u.isWorking = false := by simpa using hw
    by_cases hst : u.states = []
    · have he : startUpdate beh wfuel u = Except.ok (u, [], [], []) := by
        unfold startUpdate
        rw [if_neg hw, if_pos hst]
      refine ⟨fun hww => absurd hww hw, fun _ => he, ?_, ?_⟩
      · intro r _ _ hne
        exact absurd hst hne
      · constructor
        · intro hc
          rw [he] at hc
          exact absurd hc (by simp)
        · rintro ⟨_, hne, _, _⟩
          exact absurd hst hne
    · by_cases hln : u.queue.lastNode = none
      · have he : startUpdate beh wfuel u =
            Except.ok ({ u with queue := { u.queue with state := u.states.getLast? }, states := [] }, [], [], []) := by
          unfold startUpdate
          rw [if_neg hw, if_neg hst]
          rw [if_pos (show ({ u with queue := { u.queue with state := u.states.getLast? }, states := [] } : Updater).queue.lastNode = none from hln)]
        refine ⟨fun hww => absurd hww hw, fun hs2 => absurd hs2 hst, ?_, ?_⟩
        · intro r hr _ _
          rw [he] at hr
          obtain rfl :
              ({ u with queue := { u.queue with state := u.states.getLast? }, states := [] }, ([] : List Ev), ([] : List Job), ([] : List Job)) = r :=
            Except.ok.inj hr
          exact ⟨rfl, rfl⟩
        · constructor
          · intro hc
            rw [he] at hc
            exact absurd hc (by simp)
          · rintro ⟨_, _, hln2, _⟩
            exact absurd hln hln2
      · by_cases hcl : u.queue.cursorNode = u.queue.lastNode
        · have he : startUpdate beh wfuel u =
              Except.ok ((doUpdateWork beh wfuel { u with queue := { u.queue with state := u.states.getLast? }, states := [] }).1,
                Ev.passStarted u.states.getLast? ::
                  (doUpdateWork beh wfuel { u with queue := { u.queue with state := u.states.getLast? }, states := [] }).2.1,
                (doUpdateWork beh wfuel { u with queue := { u.queue with state := u.states.getLast? }, states := [] }).2.2.1,
                (doUpdateWork beh wfuel { u with queue := { u.queue with state := u.states.getLast? }, states := [] }).2.2.2) := by
            unfold startUpdate
            rw [if_neg hw, if_neg hst]
            rw [if_neg (show ¬({ u with queue := { u.queue with state := u.states.getLast? }, states := [] } : Updater).queue.lastNode = none from hln)]
            rw [if_neg (show ¬¬({ u with queue := { u.queue with state := u.states.getLast? }, states := [] } : Updater).queue.cursorNode = ({ u with queue := { u.queue with state := u.states.getLast? }, states := [] } : Updater).queue.lastNode from by
              simp only [not_not]
              show u.queue.cursorNode = u.queue.lastNode
              exact hcl)]
          refine ⟨fun hww => absurd hww hw, fun hs2 => absurd hs2 hst, ?_, ?_⟩
          · intro r hr _ _
            rw [he] at hr
            obtain rfl := Except.ok.inj hr
            obtain ⟨hq, hsx⟩ := doUpdateWork_frames beh wfuel
              { u with queue := { u.queue with state := u.states.getLast? }, states := [] }
            exact ⟨hq, hsx⟩
          · constructor
            · intro hc
              rw [he] at hc
              exact absurd hc (by simp)
            · rintro ⟨_, _, _, hcl2⟩
              exact absurd hcl hcl2
        · have he : startUpdate beh wfuel u = Except.error () := by
            unfold startUpdate
            rw [if_neg hw, if_neg hst]
            rw [if_neg (show ¬({ u with queue := { u.queue with state := u.states.getLast? }, states := [] } : Updater).queue.lastNode = none from hln)]
            rw [if_pos (show ¬({ u with queue := { u.queue with state := u.states.getLast? }, states := [] } : Updater).queue.cursorNode = ({ u with queue := { u.queue with state := u.states.getLast? }, states := [] } : Updater).queue.lastNode from hcl)]
          refine ⟨fun hww => absurd hww hw, fun hs2 => absurd hs2 hst, ?_, ?_⟩
          · intro r hr _ _
            rw [he] at hr
            exact absurd hr (by simp)
          · exact ⟨fun _ => ⟨hwf, hst, hln, hcl⟩, fun _ => he⟩

/-- C5 witness: on a corrupted two-node updater — idle, a snapshot
pending, but the cursor away from the tail — `startUpdate` throws the
fatal invariant error. -/
theorem c5_startUpdate_spec_witness :
    startUpdate behOk 2 c5bad = Except.error () :=
  (c5_startUpdate_spec behOk 2 c5bad).2.2.2.mpr
    ⟨by decide, by decide, by decide, by decide⟩

/-- C6: the ring invariant (`ringWF`: the `next` links visit every
resident exactly once, from head back round to the tail, with the cursor
resting on a member or cleared with the ring) holds for the empty queue,
is preserved by `appendNodeToQueue` for any arena node not already in the
ring, and is preserved by `removeCurrentNode` on any non-empty ring: the
member just after the cursor is dropped and the remaining members, in
unchanged order, still form a well-formed ring. -/
theorem c6_ring_invariant_preserved :
    ringWF initialUpdater [] = true ∧
    (∀ (u : Updater) (l : List Nat) (i : Nat), ringWF u l = true →
      i < u.nodes.length → i ∉ l →
      ringWF (appendNodeToQueue u i) (l ++ [i]) = true) ∧
    (∀ (u : Updater) (done : List Nat) (x : Nat) (todo : List Nat),
      ringAt u done (x :: todo) = true →
      ringWF (removeCurrentNode u) (done ++ todo) = true) := by
  refine ⟨by decide, append_ringWF, ?_⟩
  intro u done x todo h
  match done with
  | [] =>
      obtain ⟨c, hcur, hnx, hemp, hne⟩ := remove_step_start u x todo h
      match todo with
      | [] =>
          obtain ⟨_, _, hwf⟩ := hemp rfl
          simpa using hwf
      | y :: rest =>
          obtain ⟨hr, _, _⟩ := hne (by simp)
          simpa using ringAt_to_ringWF _ [] (y :: rest) hr
  | d :: ds =>
      obtain ⟨c, hcur, hnx, hend, hmid⟩ := remove_step_mid u d ds x todo h
      match todo with
      | [] =>
          obtain ⟨hr, _, _⟩ := hend rfl
          simpa using ringAt_to_ringWF _ [] (d :: ds) hr
      | y :: rest =>
          obtain ⟨hr, _, _⟩ := hmid (by simp)
          exact ringAt_to_ringWF _ (d :: ds) (y :: rest) hr

/-- C6 witness: removing the node after the cursor from the completed
two-node ring `[0, 1]` leaves the well-formed one-node ring `[1]`. -/
theorem c6_ring_invariant_preserved_witness :
    ringWF (removeCurrentNode (mkRing 2)) ([] ++ [1]) = true :=
  c6_ring_invariant_preserved.2.2 (mkRing 2) [] 0 [1] (by decide)

/-- C7: `appendNodeToQueue` on an empty ring makes the node its own
successor and the sole member, with cursor and tail both on it; on a
non-empty well-formed ring it splices the node in before the head
(`node.next = tail.next`, then `tail.next = node`), leaves every other
node untouched, makes the new node the tail, and advances the cursor to
the new node exactly when the cursor sat on the old tail. -/
theorem c7_append_spec (u : Updater) (i : Nat) (hi : i < u.nodes.length) :
    (u.queue.lastNode = none →
      (getNode (appendNodeToQueue u i) i).next = some i ∧
      (appendNodeToQueue u i).queue.lastNode = some i ∧
      (appendNodeToQueue u i).queue.cursorNode = some i ∧
      ringWF (appendNodeToQueue u i) [i] = true) ∧
    (∀ t l, ringWF u l = true → i ∉ l → u.queue.lastNode = some t →
      (getNode (appendNodeToQueue u i) i).next = (getNode u t).next ∧
      (getNode (appendNodeToQueue u i) t).next = some i ∧
      (∀ j, j ≠ i → j ≠ t → getNode (appendNodeToQueue u i) j = getNode u j) ∧
      (appendNodeToQueue u i).queue.lastNode = some i ∧
      ((appendNodeToQueue u i).queue.cursorNode = some i ↔
        u.queue.cursorNode = some t)) := by
  constructor
  · intro hlast
    obtain ⟨h1, h2, h3, _, h5⟩ := append_empty_spec u i hlast hi
    exact ⟨h1, h2, h3, h5⟩
  · intro t l hwf hmem hlast
    match l with
    | [] =>
        have hn : u.queue.lastNode = none :=
          (ringShape_nil_iff u).mp (ringWF_shape u [] hwf)
        rw [hlast] at hn
        exact absurd hn (by simp)
    | h1 :: rest =>
        obtain ⟨t2, hlast2, hg, hnd, hb, hcch⟩ :=
          ringShape_nonempty u h1 rest (ringWF_shape u (h1 :: rest) hwf)
        have htt : t2 = t := by
          rw [hlast2] at hlast
          exact Option.some.inj hlast
        subst htt
        have htmem : t2 ∈ h1 :: rest := List.mem_of_mem_getLast? hg
        have ht : t2 < u.nodes.length := hb t2 htmem
        have hit : i ≠ t2 := fun hc => hmem (hc ▸ htmem)
        obtain ⟨hgi, hgt, hgj, hlastA, hcurA, _, _⟩ :=
          append_nonempty_spec u i t2 hlast2 hit hi ht
        refine ⟨hgi, hgt, hgj, hlastA, ?_⟩
        constructor
        · intro hcc
          by_cases hcond : u.queue.cursorNode = some t2
          · exact hcond
          · rw [hcurA, if_neg hcond] at hcc
            obtain ⟨c, hcur, hcmem⟩ := ringWF_cursor_nonempty u h1 rest hwf
            rw [hcur] at hcc
            obtain rfl : c = i := Option.some.inj hcc
            exact absurd hcmem hmem
        · intro hcond
          rw [hcurA, if_pos hcond]

/-- C7 witness: appending the free node of a one-free-node arena to the
empty ring puts the cursor on it; appending a second free node to the
completed one-node ring makes it the new tail, and the cursor advances
because the cursor sat on the old tail. -/
theorem c7_append_spec_witness :
    (appendNodeToQueue (withFreeNode initialUpdater) 0).queue.cursorNode = some 0 ∧
    (appendNodeToQueue (withFreeNode (mkRing 1)) 1).queue.lastNode = some 1 ∧
    ((appendNodeToQueue (withFreeNode (mkRing 1)) 1).queue.cursorNode = some 1 ↔
      (withFreeNode (mkRing 1)).queue.cursorNode = some 0) := by
  have h1 := (c7_append_spec (withFreeNode initialUpdater) 0 (by decide)).1 (by decide)
  have h2 := (c7_append_spec (withFreeNode (mkRing 1)) 1 (by decide)).2 0 [0]
    (by decide) (by decide) (by decide)
  exact ⟨h1.2.2.1, h2.2.2.2.1, h2.2.2.2.2⟩

/-- C8: on a non-empty ring `removeCurrentNode` removes exactly the node
`x` just after the cursor (`cursorNode.next = x`): if `x` was the sole
member, the ring becomes empty with tail and cursor both cleared; if `x`
was the tail with the pass mid-way (a non-trivial processed prefix), the
tail moves back onto the cursor; the remaining members still form a
well-formed ring; and when the ring has more than one member the removed
node is never the cursor's own. -/
theorem c8_remove_spec (u : Updater) (done : List Nat) (x : Nat) (todo : List Nat)
    (h : ringAt u done (x :: todo) = true) :
    ∃ c, u.queue.cursorNode = some c ∧ (getNode u c).next = some x ∧
      (done = [] → todo = [] →
        (removeCurrentNode u).queue.lastNode = none ∧
        (removeCurrentNode u).queue.cursorNode = none) ∧
      (done ≠ [] → todo = [] →
        (removeCurrentNode u).queue.lastNode = some c ∧
        (removeCurrentNode u).queue.cursorNode = some c) ∧
      ringWF (removeCurrentNode u) (done ++ todo) = true ∧
      (done ++ todo ≠ [] → x ≠ c) := by
  match done with
  | [] =>
      obtain ⟨c, hcur, hnx, hemp, hne⟩ := remove_step_start u x todo h
      refine ⟨c, hcur, hnx, ?_, ?_, ?_, ?_⟩
      · intro _ ht
        subst ht
        obtain ⟨h1, h2, _⟩ := hemp rfl
        exact ⟨h1, h2⟩
      · intro hd _
        exact absurd rfl hd
      · match todo with
        | [] =>
            obtain ⟨_, _, hwf⟩ := hemp rfl
            simpa using hwf
        | y :: rest =>
            obtain ⟨hr, _, _⟩ := hne (by simp)
            simpa using ringAt_to_ringWF _ [] (y :: rest) hr
      · intro hnem
        have htne : todo ≠ [] := by simpa using hnem
        obtain ⟨hshp, hcl⟩ := ringAt_elim_nil u (x :: todo) h
        obtain ⟨t, hlastq, hg, hnd, _, _⟩ := ringShape_nonempty u x todo hshp
        have hct : c = t := by
          have hcc := hcur
          rw [hcl, hlastq] at hcc
          exact (Option.some.inj hcc).symm
        subst hct
        obtain ⟨y, rest, rfl⟩ : ∃ y rest, todo = y :: rest := by
          match todo, htne with
          | y :: rest, _ => exact ⟨y, rest, rfl⟩
        have hgt : (y :: rest).getLast? = some c := by simpa using hg
        have hmem : c ∈ y :: rest := List.mem_of_mem_getLast? hgt
        have hxnot : x ∉ y :: rest := (List.nodup_cons.mp hnd).1
        intro hxc
        rw [hxc] at hxnot
        exact hxnot hmem
  | d :: ds =>
      obtain ⟨c, hcur, hnx, hend, hmid⟩ := remove_step_mid u d ds x todo h
      refine ⟨c, hcur, hnx, ?_, ?_, ?_, ?_⟩
      · intro hd _
        exact absurd hd (by simp)
      · intro _ ht
        subst ht
        obtain ⟨_, h1, h2⟩ := hend rfl
        exact ⟨h1, h2⟩
      · match todo with
        | [] =>
            obtain ⟨hr, _, _⟩ := hend rfl
            simpa using ringAt_to_ringWF _ [] (d :: ds) hr
        | y :: rest =>
            obtain ⟨hr, _, _⟩ := hmid (by simp)
            exact ringAt_to_ringWF _ (d :: ds) (y :: rest) hr
      · intro _
        obtain ⟨cl, hcl2⟩ : ∃ cl, (d :: ds).getLast? = some cl := by
          match hq : (d :: ds).getLast? with
          | some cl => exact ⟨cl, rfl⟩
          | none => simp at hq
        obtain ⟨hshp, hcc⟩ := ringAt_elim_last u (d :: ds) (x :: todo) cl hcl2 h
        have hceq : c = cl := by
          rw [hcur] at hcc
          exact Option.some.inj hcc
        have hcmem : c ∈ d :: ds := by
          rw [hceq]
          exact List.mem_of_mem_getLast? hcl2
        obtain ⟨t, _, _, hnd, _, _⟩ :=
          ringShape_nonempty u d (ds ++ x :: todo) (by simpa using hshp)
        have hnd2 : ((d :: ds) ++ x :: todo).Nodup := by simpa using hnd
        obtain ⟨_, _, hdisj⟩ := List.nodup_append.mp hnd2
        intro hxc
        rw [← hxc] at hcmem
        exact hdisj hcmem (by simp)

/-- C8 witness: removing the sole member of a one-node ring clears both
the tail and the cursor. -/
theorem c8_remove_spec_witness :
    (removeCurrentNode (mkRing 1)).queue.lastNode = none ∧
    (removeCurrentNode (mkRing 1)).queue.cursorNode = none := by
  obtain ⟨c, hcur, hnx, hsing, _, _, _⟩ := c8_remove_spec (mkRing 1) [] 0 [] (by decide)
  exact hsing rfl rfl

/-- C9: `create` stamps the new node's last-seen state with the queue's
current snapshot, and a live node whose stamp equals the current snapshot
is skipped: `stepNode` leaves the state untouched and reports a skip, and
in a pass that completes without suspension such a node contributes a
`skipped` event and no `invoked` event, while the loop still advances the
cursor all the way to the tail past it. -/
theorem c9_stamped_node_skipped :
    (∀ (u : Updater) (live : Bool),
      (getNode (create u live).1 (create u live).2).state = u.queue.state) ∧
    (∀ (beh : Nat → CbResult) (u : Updater) (n : Nat),
      (getNode u n).state = u.queue.state → stepNode beh u n = (u, Ev.skipped n)) ∧
    (∀ (beh : Nat → CbResult) (todo done : List Nat) (fuel : Nat) (u : Updater) (n : Nat),
      ringAt u done todo = true →
      (∀ m ∈ todo, (getNode u m).live = true) →
      (∀ m ∈ todo, flagsB beh u u.queue.state m = false) →
      todo ≠ [] → u.isWorking = false → todo.length ≤ fuel →
      n ∈ todo → (getNode u n).state = u.queue.state →
      Ev.skipped n ∈ (doWorkLoop beh fuel u).2.1 ∧
      (∀ q, Ev.invoked n q ∉ (doWorkLoop beh fuel u).2.1) ∧
      (doWorkLoop beh fuel u).1.queue.cursorNode =
        (doWorkLoop beh fuel u).1.queue.lastNode) := by
  refine ⟨create_stamp, ?_, ?_⟩
  · intro beh u n hst
    unfold stepNode
    rw [if_pos hst]
  · intro beh todo done fuel u n h hlive hflags hne hw hfuel hmem hst
    obtain ⟨F, hFeq, _, _, _, _, hFcl, _, _⟩ :=
      workLoop_noflag beh todo done fuel u h hlive hflags hne hw hfuel
    rw [hFeq]
    refine ⟨?_, ?_, hFcl⟩
    · simp only [visitEvs, List.mem_map]
      refine ⟨n, hmem, ?_⟩
      simp only [visitEv]
      rw [if_neg (by rw [hlive n hmem]; simp), if_pos hst]
    · intro q hq
      simp only [visitEvs, List.mem_map] at hq
      obtain ⟨m, hm, hveq⟩ := hq
      by_cases hlv : (getNode u m).live = false
      · simp only [visitEv] at hveq
        rw [if_pos hlv] at hveq
        exact Ev.noConfusion hveq
      · by_cases hsm : (getNode u m).state = u.queue.state
        · simp only [visitEv] at hveq
          rw [if_neg hlv, if_pos hsm] at hveq
          exact Ev.noConfusion hveq
        · simp only [visitEv] at hveq
          rw [if_neg hlv, if_neg hsm] at hveq
          obtain ⟨hmn, -⟩ := Ev.invoked.inj hveq
          subst hmn
          exact hsm hst

/-- C9 witness: in the fresh two-node ring both nodes carry the stamp the
queue held at creation time (`none`), so a pass under the unchanged
snapshot skips node `0` — a `skipped 0` event and no invocation of node
`0` — and still finishes at the tail. -/
theorem c9_stamped_node_skipped_witness :
    Ev.skipped 0 ∈ (doWorkLoop behOk 2 (mkRing 2)).2.1 ∧
    (∀ q, Ev.invoked 0 q ∉ (doWorkLoop behOk 2 (mkRing 2)).2.1) := by
  have h := c9_stamped_node_skipped.2.2 behOk [0, 1] [] 2 (mkRing 2) 0
    (by decide) (by decide) (by decide) (by decide) (by decide) (by decide)
    (by decide) (by decide)
  exact ⟨h.1, h.2.1⟩

/-- C10: `newState s` is a complete no-op — updater unchanged, no events,
nothing scheduled — exactly when `s` is (identity-)equal to the queue's
current snapshot, i.e. the snapshot of the most recently started pass,
not the most recently submitted one; consequently, while working with a
snapshot installed, submitting the same distinct snapshot twice in
succession appends it to the pending buffer twice. -/
theorem c10_newState_identity_noop (beh : Nat → CbResult) (wfuel : Nat)
    (u : Updater) (s : Nat) :
    (newState beh wfuel u s = Except.ok (u, [], [], []) ↔ u.queue.state = some s) ∧
    (u.isWorking = true → u.queue.state ≠ some s →
      newState beh wfuel u s =
        Except.ok ({ u with states := u.states ++ [s] }, [], [], []) ∧
      newState beh wfuel { u with states := u.states ++ [s] } s =
        Except.ok ({ u with states := (u.states ++ [s]) ++ [s] }, [], [], [])) := by
  constructor
  · constructor
    · intro hok
      by_contra hne
      unfold newState at hok
      rw [if_pos hne] at hok
      by_cases hw : u.isWorking = true
      · unfold startUpdate at hok
        rw [if_pos (show ({ u with states := u.states ++ [s] } : Updater).isWorking = true from hw)] at hok
        have heq := Except.ok.inj hok
        have hstates : u.states ++ [s] = u.states :=
          congrArg (fun r => r.1.states) heq
        have hlen : u.states.length + 1 = u.states.length := by
          simpa using congrArg List.length hstates
        omega
      · by_cases hst : (u.states ++ [s] : List Nat) = []
        · simp at hst
        · unfold startUpdate at hok
          rw [if_neg (show ¬({ u with states := u.states ++ [s] } : Updater).isWorking = true from hw)] at hok
          rw [if_neg (show ¬({ u with states := u.states ++ [s] } : Updater).states = [] from hst)] at hok
          simp only [] at hok
          by_cases hln : u.queue.lastNode = none
          · rw [if_pos hln] at hok
            have heq := Except.ok.inj hok
            have hqs : (u.states ++ [s]).getLast? = u.queue.state :=
              congrArg (fun r => r.1.queue.state) heq
            rw [List.getLast?_concat] at hqs
            exact hne hqs.symm
          · by_cases hcl : u.queue.cursorNode = u.queue.lastNode
            · rw [if_neg hln, if_neg (not_not_intro hcl)] at hok
              have heq := Except.ok.inj hok
              have hevs := congrArg (fun r => r.2.1) heq
              simp at hevs
            · rw [if_neg hln, if_pos hcl] at hok
              exact Except.noConfusion hok
    · intro hqs
      unfold newState
      rw [if_neg (show ¬u.queue.state ≠ some s from by simp [hqs])]
  · intro hw hne
    constructor
    · unfold newState
      rw [if_pos hne]
      unfold startUpdate
      rw [if_pos (show ({ u with states := u.states ++ [s] } : Updater).isWorking = true from hw)]
    · unfold newState
      rw [if_pos (show ({ u with states := u.states ++ [s] } : Updater).queue.state ≠ some s from hne)]
      unfold startUpdate
      simp only []
      rw [if_pos hw]

/-- C10 witness: with snapshot `5` installed, resubmitting `5` is a
no-op; and on the suspended updater (working, snapshot `5` installed)
submitting the distinct snapshot `7` twice appends it to the pending
buffer both times. -/
theorem c10_newState_identity_noop_witness :
    newState behOk 2 (withSnap (mkRing 1) 5) 5 =
      Except.ok (withSnap (mkRing 1) 5, [], [], []) ∧
    newState behOk 4 { c3suspended with states := c3suspended.states ++ [7] } 7 =
      Except.ok ({ c3suspended with states := (c3suspended.states ++ [7]) ++ [7] }, [], [], []) := by
  refine ⟨?_, ?_⟩
  · exact (c10_newState_identity_noop behOk 2 (withSnap (mkRing 1) 5) 5).1.mpr (by decide)
  · exact ((c10_newState_identity_noop behOk 4 c3suspended 7).2 (by decide) (by decide)).2
